import Mathlib

/-!
# yx: YAML decoding into order-preserving values, and their rendering

A shallow embedding of `pkg/yaml/parse.go` and `pkg/yaml/stringify.go`.

* `Value` is Go's `interface{}` restricted to the dynamic types that occur here.
* `Dict`, `NewDict`, `Dict.Set` stand for the `types` package the two files import.
* `Node`, `YamlStream`, `yamlDecodeMap`, `yamlDecodeList` stand for the external
  library `gopkg.in/yaml.v3`, `Quote` and `formatInt` for `fmt.Sprintf`.
* `Decoder.IsList`, `Parse`, `dfsDecode`, `decodeDict`, `decodeArray`, `Stringify`
  are the functions of the two source files.
* `Iface` and `StringifyIface` are `Stringify` again, on the `interface{}` values that may
  hold a nil `*Dict` or a value of a type the type switch does not list.
-/

namespace Yx

/-! ## Values -/

/-- The `interface{}` of Go for the dynamic types this package meets: `nil`, `bool`, the integer
kinds (one unbounded `int` case: the width changes neither normalization nor `%v`),
`string`, the raw `map[string]interface{}`, the slice `[]interface{}` (of which
`Array` is an alias, and which is non-nil here), and a non-nil `*Dict`.

A Go map has no order of its own. `rawMap entries` lists the entries of the map in the
order in which `range` enumerates them; Go leaves that order unspecified, so every
arrangement of the same entries is a possible run. -/
inductive Value where
  | null
  | bool (b : Bool)
  | int (n : Int)
  | str (s : String)
  | rawMap (entries : List (String × Value))
  | array (items : List Value)
  | dict (Keys : List String) (Values : List (String × Value))

/-- The `error` of Go. -/
abbrev Error := String

/-- The map index expression `m[key]` on a `map[string]interface{}`:
the zero value `nil` when the key is absent. -/
def mapIndex (m : List (String × Value)) (key : String) : Value :=
  (m.lookup key).getD Value.null

/-- The map assignment `m[key] = value`: replaces the value of a present key in place,
adds the entry otherwise. -/
def mapAssign : List (String × Value) → String → Value → List (String × Value)
  | [], key, value => [(key, value)]
  | (k, v) :: rest, key, value =>
    if k = key then (k, value) :: rest else (k, v) :: mapAssign rest key value

/-- Modelled from the spec: the `Dict` type of the imported `types` package is not among
the sources. The spec calls it OrderedMap: a mapping from string key to value together
with the list of its keys in insertion order; the source reads its fields `Keys` and
`Values`. -/
structure Dict where
  Keys : List String
  Values : List (String × Value)

/-- Modelled from the spec: `NewDict` of the imported `types` package, "a new empty
OrderedMap". -/
def NewDict : Dict := ⟨[], []⟩

/-- Modelled from the spec: `Set` of the imported `types` package. It inserts the value
under the key, "appending the key to the order list at insertion time"; keys are unique and
the order is that of first insertion, so a key already present keeps its place and only
has its value replaced. -/
def Dict.Set (d : Dict) (key : String) (value : Value) : Dict :=
  if (d.Values.lookup key).isSome then
    ⟨d.Keys, mapAssign d.Values key value⟩
  else
    ⟨d.Keys ++ [key], mapAssign d.Values key value⟩

/-- A `*Dict` stored in an `interface{}`. -/
def Dict.toValue (d : Dict) : Value := Value.dict d.Keys d.Values

/-! ## The external YAML library -/

/-- The node tree that yaml.v3's parser builds for one document, for documents made of
plain scalars, sequences and mappings with string keys (no anchors, tags or merge keys).
A mapping lists its entries in document order. -/
inductive Node where
  | null
  | bool (b : Bool)
  | int (n : Int)
  | str (s : String)
  | seq (items : List Node)
  | map (entries : List (String × Node))

/-- What yaml.v3's parser reads from a byte buffer, document by document: the stream ends
(`eof`), or the next bytes do not parse (`bad`, and the parser stays in error), or
the next document is `n` and `rest` follows it. The bytes of `Decoder.raw` enter the
program only through that parser, so the embedding carries the buffer as this reading of
it. -/
inductive YamlStream where
  | eof
  | bad
  | doc (n : Node) (rest : YamlStream)

/-- The order in which Go enumerates a freshly built map, given its entries in insertion
order. The language leaves it unspecified; a legal one is a permutation. -/
abbrev MapOrder := List (String × Value) → List (String × Value)

/-- A legal enumeration order visits every entry of the map exactly once. -/
def MapOrder.Legal (ord : MapOrder) : Prop := ∀ m, (ord m).Perm m

/-- The uniqueness check of yaml.v3's `mapping`: some key occurs twice. -/
def hasDupKeys (entries : List (String × Node)) : Bool :=
  !decide (entries.map Prod.fst).Nodup

mutual
/-- What yaml.v3's `unmarshal` stores for a node in an `interface{}`; `none` when the node is
refused, which happens for a mapping with a repeated key. A sequence or mapping drops the
children that are refused. -/
def Node.toIface (ord : MapOrder) : Node → Option Value
  | Node.null => some Value.null
  | Node.bool b => some (Value.bool b)
  | Node.int n => some (Value.int n)
  | Node.str s => some (Value.str s)
  | Node.seq items => some (Value.array (seqToIface ord items))
  | Node.map entries =>
    if hasDupKeys entries then none else some (Value.rawMap (ord (mapToIface ord entries)))
/-- The elements of a sequence node, unmarshalled in order. -/
def seqToIface (ord : MapOrder) : List Node → List Value
  | [] => []
  | n :: rest =>
    match Node.toIface ord n with
    | some v => v :: seqToIface ord rest
    | none => seqToIface ord rest
/-- The entries of a mapping node, unmarshalled in document order. -/
def mapToIface (ord : MapOrder) : List (String × Node) → List (String × Value)
  | [] => []
  | (k, n) :: rest =>
    match Node.toIface ord n with
    | some v => (k, v) :: mapToIface ord rest
    | none => mapToIface ord rest
end

mutual
/-- Whether unmarshalling the node records a type error: some mapping in it repeats a
key. -/
def Node.hasTypeError : Node → Bool
  | Node.seq items => seqHasTypeError items
  | Node.map entries => hasDupKeys entries || mapHasTypeError entries
  | _ => false
/-- Some element of the sequence records a type error. -/
def seqHasTypeError : List Node → Bool
  | [] => false
  | n :: rest => Node.hasTypeError n || seqHasTypeError rest
/-- Some value of the mapping records a type error. -/
def mapHasTypeError : List (String × Node) → Bool
  | [] => false
  | (_, n) :: rest => Node.hasTypeError n || mapHasTypeError rest
end

/-- The call `(*Decoder).Decode(&m)` of yaml.v3 with `var m map[string]interface{}`: it reads the
NEXT document of the stream and unmarshals it into `m`. Returns the error, the value left
in `m` (`none` is the nil map) and the decoder after the call. -/
def yamlDecodeMap (ord : MapOrder) :
    YamlStream → Option Error × Option (List (String × Value)) × YamlStream
  | YamlStream.eof => (some "EOF", none, YamlStream.eof)
  | YamlStream.bad => (some "yaml: did not find expected node content", none, YamlStream.bad)
  | YamlStream.doc n rest =>
    match n with
    | Node.map entries =>
      if hasDupKeys entries then
        (some "yaml: unmarshal errors", none, rest)
      else if mapHasTypeError entries then
        (some "yaml: unmarshal errors", some (ord (mapToIface ord entries)), rest)
      else
        (none, some (ord (mapToIface ord entries)), rest)
    | Node.null => (none, none, rest)
    | _ => (some "yaml: unmarshal errors", none, rest)

/-- The call `(*Decoder).Decode(&l)` of yaml.v3 with `var l []interface{}`: it reads the NEXT
document of the stream and unmarshals it into `l`. Returns the error, the value left in
`l` (`none` is the nil slice) and the decoder after the call. -/
def yamlDecodeList (ord : MapOrder) :
    YamlStream → Option Error × Option (List Value) × YamlStream
  | YamlStream.eof => (some "EOF", none, YamlStream.eof)
  | YamlStream.bad => (some "yaml: did not find expected node content", none, YamlStream.bad)
  | YamlStream.doc n rest =>
    match n with
    | Node.seq items =>
      if seqHasTypeError items then
        (some "yaml: unmarshal errors", some (seqToIface ord items), rest)
      else
        (none, some (seqToIface ord items), rest)
    | Node.null => (none, none, rest)
    | _ => (some "yaml: unmarshal errors", none, rest)

/-! ## parse.go -/

/-- The `Decoder` struct: the cached flag (`none` is the nil pointer), the buffered input,
the retained raw mapping and the retained raw list (`none` is nil). -/
structure Decoder where
  isList : Option Bool
  raw : YamlStream
  m : Option (List (String × Value))
  l : Option (List Value)

/-- The constructor `NewDecoder`, applied to what `io.ReadAll` returns. -/
def NewDecoder (raw : YamlStream) : Decoder :=
  { isList := none, raw := raw, m := none, l := none }

/-- The method `(*Decoder).IsList`: the returned flag and the decoder after the call. One yaml
decoder `dec` is created over the buffer, and both `Decode` calls are made on it. -/
def Decoder.IsList (ord : MapOrder) (d : Decoder) : Bool × Decoder :=
  match d.isList with
  | some b => (b, d)
  | none =>
    let dec := d.raw
    match yamlDecodeMap ord dec with
    | (some _, _, dec1) =>
      let l := (yamlDecodeList ord dec1).2.1
      (true, { d with l := l, isList := some true })
    | (none, m, _) =>
      (false, { d with m := m, isList := some false })

mutual
/-- The function `dfsDecode`. -/
def dfsDecode : Value → Except Error Value
  | Value.rawMap value =>
    match dfsDecodeMap value NewDict with
    | Except.error err => Except.error err
    | Except.ok innerD => Except.ok innerD.toValue
  | Value.array value =>
    match dfsDecodeArray value [] with
    | Except.error err => Except.error err
    | Except.ok innerA => Except.ok (Value.array innerA)
  | i => Except.ok i
/-- The loop `for k, v := range value` of `dfsDecode` (and of `decodeDict`), from the
current `innerD`. -/
def dfsDecodeMap : List (String × Value) → Dict → Except Error Dict
  | [], innerD => Except.ok innerD
  | (k, v) :: rest, innerD =>
    match dfsDecode v with
    | Except.error err => Except.error err
    | Except.ok innerV => dfsDecodeMap rest (innerD.Set k innerV)
/-- The loop `for _, v := range value` of `dfsDecode` (and of `decodeArray`), from the
current `innerA`. -/
def dfsDecodeArray : List Value → List Value → Except Error (List Value)
  | [], innerA => Except.ok innerA
  | v :: rest, innerA =>
    match dfsDecode v with
    | Except.error err => Except.error err
    | Except.ok innerV => dfsDecodeArray rest (innerA ++ [innerV])
end

/-- The function `decodeDict`: ranging over a nil map runs no iteration. -/
def decodeDict (dec : Decoder) : Except Error Dict :=
  dfsDecodeMap (dec.m.getD []) NewDict

/-- The function `decodeArray`: ranging over a nil slice runs no iteration. -/
def decodeArray (dec : Decoder) : Except Error (List Value) :=
  dfsDecodeArray (dec.l.getD []) []

/-- The function `Parse`: the returned pair (value, error) and the decoder after the call. -/
def Parse (ord : MapOrder) (dec : Decoder) : Except Error Value × Decoder :=
  match dec.IsList ord with
  | (true, dec1) =>
    (match decodeArray dec1 with
      | Except.error err => Except.error err
      | Except.ok slice => Except.ok (Value.array slice), dec1)
  | (false, dec1) =>
    (match decodeDict dec1 with
      | Except.error err => Except.error err
      | Except.ok d => Except.ok d.toValue, dec1)

/-! ## stringify.go -/

/-- The constant `lowerhex` of `strconv`, indexed at `d`. -/
def lowerhex (d : Nat) : Char :=
  "0123456789abcdef".data.getD d '0'

/-- The predicate `strconv.IsPrint`: decided by range comparisons up to U+00FF, and by the library's
tables `isPrint16`, `isPrint32`, `isNotPrint16`, `isNotPrint32` above; those tables come
in as the parameter `tbl`. -/
def IsPrint (tbl : Char → Bool) (r : Char) : Bool :=
  if r.toNat ≤ 0xFF then
    if 0x20 ≤ r.toNat ∧ r.toNat ≤ 0x7E then true
    else if 0xA1 ≤ r.toNat then r.toNat != 0xAD
    else false
  else tbl r

/-- The function `strconv.appendEscapedRune` with the double quote as quote character, as `%q` calls
it: the text appended for one rune. A Lean `Char` is always a valid rune, so the branch
for invalid runes does not arise. -/
def appendEscapedRune (tbl : Char → Bool) (r : Char) : List Char :=
  if r = '"' ∨ r = '\\' then ['\\', r]
  else if IsPrint tbl r then [r]
  else if r.toNat = 7 then ['\\', 'a']
  else if r.toNat = 8 then ['\\', 'b']
  else if r.toNat = 12 then ['\\', 'f']
  else if r.toNat = 10 then ['\\', 'n']
  else if r.toNat = 13 then ['\\', 'r']
  else if r.toNat = 9 then ['\\', 't']
  else if r.toNat = 11 then ['\\', 'v']
  else if r.toNat < 0x20 ∨ r.toNat = 0x7F then
    ['\\', 'x', lowerhex ((r.toNat % 256) >>> 4), lowerhex ((r.toNat % 256) &&& 0xF)]
  else if r.toNat < 0x10000 then
    ['\\', 'u', lowerhex ((r.toNat >>> 12) &&& 0xF), lowerhex ((r.toNat >>> 8) &&& 0xF),
      lowerhex ((r.toNat >>> 4) &&& 0xF), lowerhex ((r.toNat >>> 0) &&& 0xF)]
  else
    ['\\', 'U', lowerhex ((r.toNat >>> 28) &&& 0xF), lowerhex ((r.toNat >>> 24) &&& 0xF),
      lowerhex ((r.toNat >>> 20) &&& 0xF), lowerhex ((r.toNat >>> 16) &&& 0xF),
      lowerhex ((r.toNat >>> 12) &&& 0xF), lowerhex ((r.toNat >>> 8) &&& 0xF),
      lowerhex ((r.toNat >>> 4) &&& 0xF), lowerhex ((r.toNat >>> 0) &&& 0xF)]

/-- The body of a quoted literal: the runes of the string, escaped one after the other. -/
def quoteBody (tbl : Char → Bool) : List Char → List Char
  | [] => []
  | r :: rest => appendEscapedRune tbl r ++ quoteBody tbl rest

/-- The call `fmt.Sprintf("%q", s)`, which is `strconv.Quote(s)`, for a string of valid runes. -/
def Quote (tbl : Char → Bool) (s : String) : String :=
  String.mk ('"' :: (quoteBody tbl s.data ++ ['"']))

/-- The call `fmt.Sprintf("%v", v)` for an integer `v`: its decimal digits, after a minus sign when
it is negative. -/
def formatInt : Int → String
  | Int.ofNat n => Nat.repr n
  | Int.negSucc n => "-" ++ Nat.repr (n + 1)

/-- The loop `for i, key := range v.Keys` of the `*Dict` case, from index `i` and the
current `result`; `len` is `len(v.Keys)` and `rendered` holds `Stringify(value)` for
every entry of `v.Values`. -/
def dictLoop (tbl : Char → Bool) (len : Nat) (rendered : List (String × String)) :
    Nat → List String → String → String
  | _, [], result => result
  | i, key :: rest, result =>
    let line := Quote tbl key ++ ": " ++ (rendered.lookup key).getD "null"
    let line := if (i : Int) < (len : Int) - 1 then line ++ "," else line
    dictLoop tbl len rendered (i + 1) rest (result ++ line)

/-- The loop `for i, value := range v` of the `Array` case, from index `i` and the current
`result`; `len` is `len(v)` and the list holds `Stringify(value)` for the elements left. -/
def arrayLoop (len : Nat) : Nat → List String → String → String
  | _, [], result => result
  | i, s :: rest, result =>
    let line := s
    let line := if (i : Int) < (len : Int) - 1 then line ++ "," else line
    arrayLoop len (i + 1) rest (result ++ line)

mutual
/-- The function `Stringify`. The two container cases render their children first (`StringifyValues`,
`StringifyItems`) and then run the loop of the source over the rendered texts;
`Stringify_dict` and `Stringify_array` below put the recursive calls back where the source
has them. A `Value` holds no nil `*Dict`, on which the source panics: `StringifyIface`
below is the same function on the values that may hold one. -/
def Stringify (tbl : Char → Bool) : Value → String
  | Value.null => "null"
  | Value.bool v => if v then "true" else "false"
  | Value.int v => formatInt v
  | Value.str v => Quote tbl v
  | Value.dict keys values =>
    dictLoop tbl keys.length (StringifyValues tbl values) 0 keys "\x7b" ++ "\x7d"
  | Value.array v =>
    arrayLoop v.length 0 (StringifyItems tbl v) "[" ++ "]"
  | Value.rawMap _ => "unknown type"
/-- The text `Stringify` gives for every element of a slice. -/
def StringifyItems (tbl : Char → Bool) : List Value → List String
  | [] => []
  | v :: rest => Stringify tbl v :: StringifyItems tbl rest
/-- The text `Stringify` gives for every value of a map. -/
def StringifyValues (tbl : Char → Bool) : List (String × Value) → List (String × String)
  | [] => []
  | (k, v) :: rest => (k, Stringify tbl v) :: StringifyValues tbl rest
end

/-! ## Unquoting, for the statement about quoted strings -/

/-- The value of a hexadecimal digit. -/
def hexVal (c : Char) : Option Nat :=
  if 48 ≤ c.toNat ∧ c.toNat ≤ 57 then some (c.toNat - 48)
  else if 97 ≤ c.toNat ∧ c.toNat ≤ 102 then some (c.toNat - 87)
  else if 65 ≤ c.toNat ∧ c.toNat ≤ 70 then some (c.toNat - 55)
  else none

/-- The number written by a run of hexadecimal digits, continuing from `acc`. -/
def hexDigits : List Char → Nat → Option Nat
  | [], acc => some acc
  | c :: cs, acc =>
    match hexVal c with
    | none => none
    | some v => hexDigits cs (acc * 16 + v)

/-- The rune written by a run of hexadecimal digits, when it is a valid rune. -/
def hexRune (ds : List Char) (rest : List Char) : Option (Char × List Char) :=
  match hexDigits ds 0 with
  | none => none
  | some v =>
    if v < 0xD800 ∨ (0xDFFF < v ∧ v < 0x110000) then some (Char.ofNat v, rest) else none

/-- Reading one rune off the body of a double-quoted Go literal (what `strconv.Unquote`
does for the escapes below): a bare double quote or a raw newline is refused, any other
rune but the backslash stands for itself, and a backslash starts an escape sequence. A
`\x` escape denotes a byte, read here as the rune of that value when it is ASCII. Returns
the rune and the text left. -/
def unquoteChar : List Char → Option (Char × List Char)
  | [] => none
  | c :: rest =>
    if c = '"' ∨ c = '\n' then none
    else if c ≠ '\\' then some (c, rest)
    else
      match rest with
      | [] => none
      | e :: rest1 =>
        if e = 'a' then some (Char.ofNat 7, rest1)
        else if e = 'b' then some (Char.ofNat 8, rest1)
        else if e = 'f' then some (Char.ofNat 12, rest1)
        else if e = 'n' then some (Char.ofNat 10, rest1)
        else if e = 'r' then some (Char.ofNat 13, rest1)
        else if e = 't' then some (Char.ofNat 9, rest1)
        else if e = 'v' then some (Char.ofNat 11, rest1)
        else if e = '\\' then some ('\\', rest1)
        else if e = '"' then some ('"', rest1)
        else if e = 'x' then
          match rest1 with
          | h1 :: h2 :: rest2 =>
            match hexDigits [h1, h2] 0 with
            | none => none
            | some v => if v < 0x80 then some (Char.ofNat v, rest2) else none
          | _ => none
        else if e = 'u' then
          match rest1 with
          | h1 :: h2 :: h3 :: h4 :: rest2 => hexRune [h1, h2, h3, h4] rest2
          | _ => none
        else if e = 'U' then
          match rest1 with
          | h1 :: h2 :: h3 :: h4 :: h5 :: h6 :: h7 :: h8 :: rest2 =>
            hexRune [h1, h2, h3, h4, h5, h6, h7, h8] rest2
          | _ => none
        else none

/-- Unquoting the body of a literal, rune by rune; `fuel` bounds the number of runes read,
and the length of the body always suffices. -/
def unquoteBody : Nat → List Char → Option (List Char)
  | _, [] => some []
  | 0, _ :: _ => none
  | fuel + 1, c :: cs =>
    match unquoteChar (c :: cs) with
    | none => none
    | some (r, rest) =>
      match unquoteBody fuel rest with
      | none => none
      | some out => some (r :: out)

/-- Unquoting a double-quoted literal: the text between the two quotes, unescaped. -/
def Unquote (s : String) : Option String :=
  match s.data with
  | [] => none
  | q :: cs =>
    if q = '"' ∧ cs.getLast? = some '"' then
      match unquoteBody cs.length cs.dropLast with
      | none => none
      | some out => some (String.mk out)
    else none

/-- The dictionary lists exactly the keys of its values, each once. -/
def Dict.WF (d : Dict) : Prop := d.Keys = d.Values.map Prod.fst ∧ d.Keys.Nodup

/-! ## Notions used by the statements on decoding -/

/-- The buffer holds at most one document: the stream ends, or fails to parse, at once or
right after its first document. -/
def YamlStream.atMostOneDocument : YamlStream → Bool
  | YamlStream.eof => true
  | YamlStream.bad => true
  | YamlStream.doc _ YamlStream.eof => true
  | YamlStream.doc _ YamlStream.bad => true
  | YamlStream.doc _ (YamlStream.doc _ _) => false

/-- The states a decoder over the buffer `raw` goes through: it is created by `NewDecoder`,
and then `IsList` and `Parse` are called on it, each call in a run of its own (`ord`). -/
inductive Reachable (raw : YamlStream) : Decoder → Prop where
  | fresh : Reachable raw (NewDecoder raw)
  | isList (ord : MapOrder) (d : Decoder) :
      Reachable raw d → Reachable raw (d.IsList ord).2
  | parse (ord : MapOrder) (d : Decoder) :
      Reachable raw d → Reachable raw (Parse ord d).2

mutual
/-- The nesting depth of a raw value as `dfsDecode` sees it: 0 for a value it returns
unchanged, one more than the deepest child for a raw mapping or a sequence. -/
def nestingDepth : Value → Nat
  | Value.rawMap entries => entriesDepth entries + 1
  | Value.array items => itemsDepth items + 1
  | _ => 0
/-- The largest nesting depth among the elements of a sequence. -/
def itemsDepth : List Value → Nat
  | [] => 0
  | v :: rest => max (nestingDepth v) (itemsDepth rest)
/-- The largest nesting depth among the values of a mapping. -/
def entriesDepth : List (String × Value) → Nat
  | [] => 0
  | (_, v) :: rest => max (nestingDepth v) (entriesDepth rest)
end

/-- The loop `for k, v := range value` of `dfsDecode`, with the recursive call to
`dfsDecode` made through `call`. -/
def mapLoopWith (call : Value → Option (Except Error Value)) :
    List (String × Value) → Dict → Option (Except Error Dict)
  | [], innerD => some (Except.ok innerD)
  | (k, v) :: rest, innerD =>
    match call v with
    | none => none
    | some (Except.error err) => some (Except.error err)
    | some (Except.ok innerV) => mapLoopWith call rest (innerD.Set k innerV)

/-- The loop `for _, v := range value` of `dfsDecode`, with the recursive call to
`dfsDecode` made through `call`. -/
def arrayLoopWith (call : Value → Option (Except Error Value)) :
    List Value → List Value → Option (Except Error (List Value))
  | [], innerA => some (Except.ok innerA)
  | v :: rest, innerA =>
    match call v with
    | none => none
    | some (Except.error err) => some (Except.error err)
    | some (Except.ok innerV) => arrayLoopWith call rest (innerA ++ [innerV])

/-- The function `dfsDecode` run with a bound on the depth of its recursion: `frames` is
the number of nested activations of `dfsDecode` allowed, and `none` means that the bound
was reached before the call returned. -/
def dfsDecodeWithin : Nat → Value → Option (Except Error Value)
  | 0, _ => none
  | frames + 1, Value.rawMap value =>
    match mapLoopWith (dfsDecodeWithin frames) value NewDict with
    | none => none
    | some (Except.error err) => some (Except.error err)
    | some (Except.ok innerD) => some (Except.ok innerD.toValue)
  | frames + 1, Value.array value =>
    match arrayLoopWith (dfsDecodeWithin frames) value [] with
    | none => none
    | some (Except.error err) => some (Except.error err)
    | some (Except.ok innerA) => some (Except.ok (Value.array innerA))
  | _ + 1, i => some (Except.ok i)

mutual
/-- The value is a raw tree as the generic decode builds it: only string-keyed mappings,
sequences, null, booleans, integers and strings. -/
def isRawTree : Value → Bool
  | Value.rawMap entries => entriesAreRaw entries
  | Value.array items => itemsAreRaw items
  | Value.dict _ _ => false
  | _ => true
/-- Every element of the sequence is a raw tree. -/
def itemsAreRaw : List Value → Bool
  | [] => true
  | v :: rest => isRawTree v && itemsAreRaw rest
/-- Every value of the mapping is a raw tree. -/
def entriesAreRaw : List (String × Value) → Bool
  | [] => true
  | (_, v) :: rest => isRawTree v && entriesAreRaw rest
end

mutual
/-- The value is a Canonical Value of the spec: null, a boolean, a number, a string, an
OrderedMap of Canonical Values or a List of Canonical Values. -/
def isCanonical : Value → Bool
  | Value.rawMap _ => false
  | Value.array items => itemsAreCanonical items
  | Value.dict _ values => valuesAreCanonical values
  | _ => true
/-- Every element of the List is a Canonical Value. -/
def itemsAreCanonical : List Value → Bool
  | [] => true
  | v :: rest => isCanonical v && itemsAreCanonical rest
/-- Every value of the OrderedMap is a Canonical Value. -/
def valuesAreCanonical : List (String × Value) → Bool
  | [] => true
  | (_, v) :: rest => isCanonical v && valuesAreCanonical rest
end

/-! ## A renderer without fallback, for the statement on renderable output -/

/-- The entries of an OrderedMap for the reference renderer, from the order list and the
rendered values: a key without value renders null, and a value that did not render makes
the whole fail. -/
def strictEntries (tbl : Char → Bool) (rendered : List (String × Option String)) :
    List String → Option (List String)
  | [] => some []
  | key :: rest =>
    match (rendered.lookup key).getD (some "null"), strictEntries tbl rendered rest with
    | some text, some entries => some ((Quote tbl key ++ ": " ++ text) :: entries)
    | _, _ => none

mutual
/-- The reference renderer, written from the contract of the Canonical Stringifier case by
case, except that it has no fallback: on a shape that is not a Canonical Value it gives no
text (`none`), also when the shape is nested. -/
def renderStrict (tbl : Char → Bool) : Value → Option String
  | Value.null => some "null"
  | Value.bool v => some (if v then "true" else "false")
  | Value.int v => some (formatInt v)
  | Value.str v => some (Quote tbl v)
  | Value.dict keys values =>
    match strictEntries tbl (renderStrictValues tbl values) keys with
    | none => none
    | some entries => some ("\x7b" ++ ",".intercalate entries ++ "\x7d")
  | Value.array items =>
    match renderStrictItems tbl items with
    | none => none
    | some texts => some ("[" ++ ",".intercalate texts ++ "]")
  | Value.rawMap _ => none
/-- The reference rendering of every element of a List. -/
def renderStrictItems (tbl : Char → Bool) : List Value → Option (List String)
  | [] => some []
  | v :: rest =>
    match renderStrict tbl v, renderStrictItems tbl rest with
    | some text, some texts => some (text :: texts)
    | _, _ => none
/-- The reference rendering of every value of an OrderedMap. -/
def renderStrictValues (tbl : Char → Bool) :
    List (String × Value) → List (String × Option String)
  | [] => []
  | (k, v) :: rest => (k, renderStrict tbl v) :: renderStrictValues tbl rest
end

/-! ## Decimal numerals, for the statement on integers -/

/-- The character is a decimal digit. -/
def isDecimalDigit (c : Char) : Bool := decide (48 ≤ c.toNat ∧ c.toNat ≤ 57)

/-- The number that a run of decimal digits writes, most significant digit first. -/
def decimalValue (cs : List Char) : Nat :=
  cs.foldl (fun acc c => 10 * acc + (c.toNat - 48)) 0

/-- The text is the canonical base-10 numeral of `n`: decimal digits only, at least one,
no leading zero except for the numeral of zero itself, and of value `n`. -/
def IsCanonicalNumeral (cs : List Char) (n : Nat) : Prop :=
  cs ≠ [] ∧ (∀ c ∈ cs, isDecimalDigit c = true) ∧ decimalValue cs = n ∧
    (cs.head? = some '0' → cs = ['0'])

/-! ## stringify.go on every `interface{}` -/

/-- A run-time panic of Go, by its message. -/
abbrev Panic := String

/-- The panic of a field access through a nil pointer. -/
def nilDereference : Panic :=
  "runtime error: invalid memory address or nil pointer dereference"

/-- The `interface{}` values that `Stringify` can be handed, beyond those of `Value`: a
`*Dict` may be the nil pointer (`nilDict`), and the dynamic type may be any type that the
type switch does not list (`other`, by the name of the type), at the top or nested. -/
inductive Iface where
  | null
  | bool (b : Bool)
  | int (n : Int)
  | str (s : String)
  | rawMap (entries : List (String × Iface))
  | array (items : List Iface)
  | dict (Keys : List String) (Values : List (String × Iface))
  | nilDict
  | other (dynamicType : String)

/-- The loop `for i, key := range v.Keys` of the `*Dict` case, as `dictLoop`, when the
call `Stringify(v.Values[key])` may panic: `rendered` holds the outcome of `Stringify` for
every entry of `v.Values`, and a panic ends the loop. -/
def dictLoopIface (tbl : Char → Bool) (len : Nat)
    (rendered : List (String × Except Panic String)) :
    Nat → List String → String → Except Panic String
  | _, [], result => Except.ok result
  | i, key :: rest, result =>
    match (rendered.lookup key).getD (Except.ok "null") with
    | Except.error p => Except.error p
    | Except.ok text =>
      let line := Quote tbl key ++ ": " ++ text
      let line := if (i : Int) < (len : Int) - 1 then line ++ "," else line
      dictLoopIface tbl len rendered (i + 1) rest (result ++ line)

mutual
/-- The function `Stringify` on every `interface{}`, with its outcome: the text returned,
or the panic raised. The `*Dict` case reads `v.Keys` first, which panics on the nil
pointer; the two container cases render their children first, as in `Stringify`, and a
panic of a child is the panic of the call. -/
def StringifyIface (tbl : Char → Bool) : Iface → Except Panic String
  | Iface.null => Except.ok "null"
  | Iface.bool v => Except.ok (if v then "true" else "false")
  | Iface.int v => Except.ok (formatInt v)
  | Iface.str v => Except.ok (Quote tbl v)
  | Iface.nilDict => Except.error nilDereference
  | Iface.dict keys values =>
    match dictLoopIface tbl keys.length (StringifyIfaceValues tbl values) 0 keys "\x7b" with
    | Except.error p => Except.error p
    | Except.ok result => Except.ok (result ++ "\x7d")
  | Iface.array v =>
    match StringifyIfaceItems tbl v with
    | Except.error p => Except.error p
    | Except.ok texts => Except.ok (arrayLoop v.length 0 texts "[" ++ "]")
  | Iface.rawMap _ => Except.ok "unknown type"
  | Iface.other _ => Except.ok "unknown type"
/-- The outcome of `Stringify` on the elements of a slice, in order: the first panic, or
all the texts. -/
def StringifyIfaceItems (tbl : Char → Bool) : List Iface → Except Panic (List String)
  | [] => Except.ok []
  | v :: rest =>
    match StringifyIface tbl v with
    | Except.error p => Except.error p
    | Except.ok text =>
      match StringifyIfaceItems tbl rest with
      | Except.error p => Except.error p
      | Except.ok texts => Except.ok (text :: texts)
/-- The outcome of `Stringify` on every value of a map. -/
def StringifyIfaceValues (tbl : Char → Bool) :
    List (String × Iface) → List (String × Except Panic String)
  | [] => []
  | (k, v) :: rest => (k, StringifyIface tbl v) :: StringifyIfaceValues tbl rest
end

mutual
/-- A value of the first embedding, as an `interface{}` of the second. -/
def Value.asIface : Value → Iface
  | Value.null => Iface.null
  | Value.bool b => Iface.bool b
  | Value.int n => Iface.int n
  | Value.str s => Iface.str s
  | Value.rawMap entries => Iface.rawMap (entriesAsIface entries)
  | Value.array items => Iface.array (itemsAsIface items)
  | Value.dict keys values => Iface.dict keys (entriesAsIface values)
/-- The elements of a slice, as `interface{}` values of the second embedding. -/
def itemsAsIface : List Value → List Iface
  | [] => []
  | v :: rest => Value.asIface v :: itemsAsIface rest
/-- The entries of a map, as `interface{}` values of the second embedding. -/
def entriesAsIface : List (String × Value) → List (String × Iface)
  | [] => []
  | (k, v) :: rest => (k, Value.asIface v) :: entriesAsIface rest
end

mutual
/-- No nil `*Dict` stands where the rendering goes: the value is not one, nor is an
element of a List or a value of an OrderedMap in it, at any depth. -/
def Iface.hasNoNilDict : Iface → Bool
  | Iface.nilDict => false
  | Iface.array items => itemsHaveNoNilDict items
  | Iface.dict _ values => valuesHaveNoNilDict values
  | _ => true
/-- No element of the List is or holds a nil `*Dict`. -/
def itemsHaveNoNilDict : List Iface → Bool
  | [] => true
  | v :: rest => Iface.hasNoNilDict v && itemsHaveNoNilDict rest
/-- No value of the OrderedMap is or holds a nil `*Dict`. -/
def valuesHaveNoNilDict : List (String × Iface) → Bool
  | [] => true
  | (_, v) :: rest => Iface.hasNoNilDict v && valuesHaveNoNilDict rest
end

/-! ## Normalization never takes its error branch -/

mutual
theorem dfsDecode_ok : ∀ v : Value, ∃ w, dfsDecode v = Except.ok w
  | Value.rawMap value => by
    obtain ⟨d, hd⟩ := dfsDecodeMap_ok value NewDict
    exact ⟨d.toValue, by simp [dfsDecode, hd]⟩
  | Value.array value => by
    obtain ⟨a, ha⟩ := dfsDecodeArray_ok value []
    exact ⟨Value.array a, by simp [dfsDecode, ha]⟩
  | Value.null => ⟨Value.null, by simp [dfsDecode]⟩
  | Value.bool x => ⟨Value.bool x, by simp [dfsDecode]⟩
  | Value.int x => ⟨Value.int x, by simp [dfsDecode]⟩
  | Value.str x => ⟨Value.str x, by simp [dfsDecode]⟩
  | Value.dict ks vs => ⟨Value.dict ks vs, by simp [dfsDecode]⟩
theorem dfsDecodeMap_ok : ∀ (es : List (String × Value)) (d : Dict),
    ∃ d', dfsDecodeMap es d = Except.ok d'
  | [], d => ⟨d, by simp [dfsDecodeMap]⟩
  | (k, v) :: rest, d => by
    obtain ⟨w, hw⟩ := dfsDecode_ok v
    obtain ⟨d', hd'⟩ := dfsDecodeMap_ok rest (d.Set k w)
    exact ⟨d', by simp [dfsDecodeMap, hw, hd']⟩
theorem dfsDecodeArray_ok : ∀ (vs : List Value) (a : List Value),
    ∃ a', dfsDecodeArray vs a = Except.ok a'
  | [], a => ⟨a, by simp [dfsDecodeArray]⟩
  | v :: rest, a => by
    obtain ⟨w, hw⟩ := dfsDecode_ok v
    obtain ⟨a', ha'⟩ := dfsDecodeArray_ok rest (a ++ [w])
    exact ⟨a', by simp [dfsDecodeArray, hw, ha']⟩
end

/-! ## Lemmas on maps and the ordered dictionary -/

theorem lookup_isSome_iff {α : Type} (m : List (String × α)) (k : String) :
    (m.lookup k).isSome = true ↔ k ∈ m.map Prod.fst := by
  induction m with
  | nil => simp
  | cons p rest ih =>
    obtain ⟨k', v⟩ := p
    by_cases h : k = k'
    · simp [List.lookup, h]
    · have hb : (k == k') = false := by simpa using h
      simp [List.lookup, hb, h, ih]

theorem mapAssign_keys (m : List (String × Value)) (k : String) (v : Value) :
    (mapAssign m k v).map Prod.fst =
      if k ∈ m.map Prod.fst then m.map Prod.fst else m.map Prod.fst ++ [k] := by
  induction m with
  | nil => simp [mapAssign]
  | cons p rest ih =>
    obtain ⟨k', v'⟩ := p
    by_cases h : k' = k
    · simp [mapAssign, h]
    · have h' : ¬ k = k' := fun e => h e.symm
      simp only [mapAssign, h, if_false, List.map_cons, ih, List.mem_cons, h', false_or]
      split <;> simp

theorem lookup_mapAssign (m : List (String × Value)) (k : String) (v : Value) (k' : String) :
    (mapAssign m k v).lookup k' = if k' = k then some v else m.lookup k' := by
  induction m with
  | nil =>
    by_cases h : k' = k
    · simp [mapAssign, List.lookup, h]
    · have hb : (k' == k) = false := by simpa using h
      simp [mapAssign, List.lookup, h, hb]
  | cons p rest ih =>
    obtain ⟨k0, v0⟩ := p
    by_cases h0 : k0 = k
    · subst h0
      by_cases h : k' = k0
      · simp [mapAssign, List.lookup, h]
      · have hb : (k' == k0) = false := by simpa using h
        simp [mapAssign, List.lookup, h, hb]
    · by_cases h : k' = k0
      · subst h
        simp [mapAssign, List.lookup, h0]
      · have hb : (k' == k0) = false := by simpa using h
        simp [mapAssign, List.lookup, h0, hb, ih]

theorem NewDict_WF : NewDict.WF := by simp [Dict.WF, NewDict]

theorem Dict.Set_Keys (d : Dict) (hd : d.WF) (k : String) (v : Value) :
    (d.Set k v).Keys = if k ∈ d.Keys then d.Keys else d.Keys ++ [k] := by
  have hk : (d.Values.lookup k).isSome = true ↔ k ∈ d.Keys := by
    rw [lookup_isSome_iff, ← hd.1]
  unfold Dict.Set
  by_cases h : k ∈ d.Keys
  · simp [h, hk.2 h]
  · have h2 : ¬ (d.Values.lookup k).isSome = true := fun e => h (hk.1 e)
    simp [h, h2]

theorem Dict.Set_Values (d : Dict) (k : String) (v : Value) :
    (d.Set k v).Values = mapAssign d.Values k v := by
  unfold Dict.Set
  split <;> rfl

theorem Dict.Set_WF (d : Dict) (hd : d.WF) (k : String) (v : Value) : (d.Set k v).WF := by
  refine ⟨?_, ?_⟩
  · rw [Dict.Set_Keys d hd, Dict.Set_Values, mapAssign_keys, ← hd.1]
  · rw [Dict.Set_Keys d hd]
    split
    · exact hd.2
    · rename_i h
      exact List.Nodup.append hd.2 (List.nodup_singleton k) (by simpa using h)

theorem Dict.Set_lookup (d : Dict) (k : String) (v : Value) (k' : String) :
    (d.Set k v).Values.lookup k' = if k' = k then some v else d.Values.lookup k' := by
  rw [Dict.Set_Values, lookup_mapAssign]

/-! ## Lemmas on the two loops of normalization -/

theorem dfsDecodeMap_cons_ok {k : String} {v : Value} {rest : List (String × Value)}
    {d d' : Dict} (h : dfsDecodeMap ((k, v) :: rest) d = Except.ok d') :
    ∃ w, dfsDecode v = Except.ok w ∧ dfsDecodeMap rest (d.Set k w) = Except.ok d' := by
  rw [dfsDecodeMap] at h
  cases hv : dfsDecode v with
  | error e => rw [hv] at h; cases h
  | ok w => rw [hv] at h; exact ⟨w, rfl, h⟩

theorem dfsDecodeArray_cons_ok {v : Value} {rest a a' : List Value}
    (h : dfsDecodeArray (v :: rest) a = Except.ok a') :
    ∃ w, dfsDecode v = Except.ok w ∧ dfsDecodeArray rest (a ++ [w]) = Except.ok a' := by
  rw [dfsDecodeArray] at h
  cases hv : dfsDecode v with
  | error e => rw [hv] at h; cases h
  | ok w => rw [hv] at h; exact ⟨w, rfl, h⟩

theorem dfsDecodeMap_WF (es : List (String × Value)) :
    ∀ d d', d.WF → dfsDecodeMap es d = Except.ok d' → d'.WF := by
  induction es with
  | nil =>
    intro d d' hd h
    rw [dfsDecodeMap] at h
    cases h
    exact hd
  | cons p rest ih =>
    obtain ⟨k, v⟩ := p
    intro d d' hd h
    obtain ⟨w, _, hrest⟩ := dfsDecodeMap_cons_ok h
    exact ih _ _ (Dict.Set_WF d hd k w) hrest

theorem dfsDecodeMap_mem_Keys (es : List (String × Value)) :
    ∀ d d', d.WF → dfsDecodeMap es d = Except.ok d' →
      ∀ k, k ∈ d'.Keys ↔ k ∈ d.Keys ∨ k ∈ es.map Prod.fst := by
  induction es with
  | nil =>
    intro d d' hd h k
    rw [dfsDecodeMap] at h
    cases h
    simp
  | cons p rest ih =>
    obtain ⟨k0, v⟩ := p
    intro d d' hd h k
    obtain ⟨w, _, hrest⟩ := dfsDecodeMap_cons_ok h
    rw [ih _ _ (Dict.Set_WF d hd k0 w) hrest k, Dict.Set_Keys d hd]
    by_cases hk : k0 ∈ d.Keys
    · simp only [hk, if_true, List.map_cons, List.mem_cons]
      constructor
      · rintro (h1 | h1)
        · exact Or.inl h1
        · exact Or.inr (Or.inr h1)
      · rintro (h1 | h1 | h1)
        · exact Or.inl h1
        · exact Or.inl (h1 ▸ hk)
        · exact Or.inr h1
    · simp only [hk, if_false, List.map_cons, List.mem_cons, List.mem_append,
        List.mem_singleton]
      tauto

theorem dfsDecodeMap_Keys (es : List (String × Value)) :
    ∀ d d', d.WF → dfsDecodeMap es d = Except.ok d' → (es.map Prod.fst).Nodup →
      (∀ k ∈ es.map Prod.fst, k ∉ d.Keys) → d'.Keys = d.Keys ++ es.map Prod.fst := by
  induction es with
  | nil =>
    intro d d' hd h _ _
    rw [dfsDecodeMap] at h
    cases h
    simp
  | cons p rest ih =>
    obtain ⟨k0, v⟩ := p
    intro d d' hd h hnd hdisj
    obtain ⟨w, _, hrest⟩ := dfsDecodeMap_cons_ok h
    have hk0 : k0 ∉ d.Keys := hdisj k0 (by simp)
    have hnd' : k0 ∉ rest.map Prod.fst ∧ (rest.map Prod.fst).Nodup := by
      simpa [List.nodup_cons] using hnd
    have hkeys : (d.Set k0 w).Keys = d.Keys ++ [k0] := by
      rw [Dict.Set_Keys d hd, if_neg hk0]
    rw [ih _ _ (Dict.Set_WF d hd k0 w) hrest hnd'.2, hkeys]
    · simp
    · intro k hk
      rw [hkeys]
      intro hmem
      rcases List.mem_append.1 hmem with h1 | h1
      · exact hdisj k (by simp [List.mem_map] at hk ⊢; exact Or.inr hk) h1
      · have : k = k0 := by simpa using h1
        exact hnd'.1 (this ▸ hk)

theorem dfsDecodeMap_lookup_of_not_mem (es : List (String × Value)) :
    ∀ d d', dfsDecodeMap es d = Except.ok d' → ∀ k, k ∉ es.map Prod.fst →
      d'.Values.lookup k = d.Values.lookup k := by
  induction es with
  | nil =>
    intro d d' h k _
    rw [dfsDecodeMap] at h
    cases h
    rfl
  | cons p rest ih =>
    obtain ⟨k0, v⟩ := p
    intro d d' h k hk
    obtain ⟨w, _, hrest⟩ := dfsDecodeMap_cons_ok h
    have hk' : k ≠ k0 ∧ k ∉ rest.map Prod.fst := by
      simpa [not_or] using hk
    rw [ih _ _ hrest k hk'.2, Dict.Set_lookup, if_neg hk'.1]

theorem dfsDecodeMap_lookup_of_mem (es : List (String × Value)) :
    ∀ d d', dfsDecodeMap es d = Except.ok d' → (es.map Prod.fst).Nodup →
      ∀ k v, (k, v) ∈ es →
        ∃ w, dfsDecode v = Except.ok w ∧ d'.Values.lookup k = some w := by
  induction es with
  | nil => intro d d' _ _ k v hmem; cases hmem
  | cons p rest ih =>
    obtain ⟨k0, v0⟩ := p
    intro d d' h hnd k v hmem
    obtain ⟨w, hw, hrest⟩ := dfsDecodeMap_cons_ok h
    have hnd' : k0 ∉ rest.map Prod.fst ∧ (rest.map Prod.fst).Nodup := by
      simpa [List.nodup_cons] using hnd
    rcases List.mem_cons.1 hmem with heq | hin
    · rw [(Prod.mk.inj heq).1, (Prod.mk.inj heq).2]
      refine ⟨w, hw, ?_⟩
      rw [dfsDecodeMap_lookup_of_not_mem rest _ _ hrest k0 hnd'.1, Dict.Set_lookup, if_pos rfl]
    · exact ih _ _ hrest hnd'.2 k v hin

theorem lookup_of_mem_nodup {α : Type} (m : List (String × α)) (hnd : (m.map Prod.fst).Nodup)
    (k : String) (v : α) (hmem : (k, v) ∈ m) : m.lookup k = some v := by
  induction m with
  | nil => cases hmem
  | cons p rest ih =>
    obtain ⟨k0, v0⟩ := p
    have hnd' : k0 ∉ rest.map Prod.fst ∧ (rest.map Prod.fst).Nodup := by
      simpa [List.nodup_cons] using hnd
    rcases List.mem_cons.1 hmem with heq | hin
    · rw [(Prod.mk.inj heq).1, (Prod.mk.inj heq).2]
      simp [List.lookup]
    · have hne : k ≠ k0 := by
        intro e
        apply hnd'.1
        rw [← e]
        exact List.mem_map.2 ⟨(k, v), hin, rfl⟩
      have hb : (k == k0) = false := by simpa using hne
      simp [List.lookup, hb, ih hnd'.2 hin]

theorem exists_of_mem_keys {α : Type} (m : List (String × α)) (k : String)
    (h : k ∈ m.map Prod.fst) : ∃ v, (k, v) ∈ m := by
  obtain ⟨⟨k', v⟩, hmem, hk⟩ := List.mem_map.1 h
  cases hk
  exact ⟨v, hmem⟩

/-- The array loop appends the normalized elements, one for one and in order. -/
theorem dfsDecodeArray_spec (vs : List Value) :
    ∀ a a', dfsDecodeArray vs a = Except.ok a' →
      ∃ ws, a' = a ++ ws ∧ List.Forall₂ (fun v w => dfsDecode v = Except.ok w) vs ws := by
  induction vs with
  | nil =>
    intro a a' h
    rw [dfsDecodeArray] at h
    cases h
    exact ⟨[], by simp, List.Forall₂.nil⟩
  | cons v rest ih =>
    intro a a' h
    obtain ⟨w, hw, hrest⟩ := dfsDecodeArray_cons_ok h
    obtain ⟨ws, hws, hall⟩ := ih _ _ hrest
    exact ⟨w :: ws, by simp [hws], List.Forall₂.cons hw hall⟩

/-! ## Lemmas on the YAML library -/

theorem Node.hasTypeError_map (entries : List (String × Node)) :
    Node.hasTypeError (Node.map entries) = (hasDupKeys entries || mapHasTypeError entries) := by
  rw [Node.hasTypeError]

theorem toIface_isSome (ord : MapOrder) (n : Node) (h : Node.hasTypeError n = false) :
    ∃ v, Node.toIface ord n = some v := by
  cases n with
  | null => exact ⟨_, by rw [Node.toIface]⟩
  | bool b => exact ⟨_, by rw [Node.toIface]⟩
  | int i => exact ⟨_, by rw [Node.toIface]⟩
  | str s => exact ⟨_, by rw [Node.toIface]⟩
  | seq items => exact ⟨_, by rw [Node.toIface]⟩
  | map entries =>
    rw [Node.hasTypeError_map, Bool.or_eq_false_iff] at h
    exact ⟨_, by rw [Node.toIface, h.1]; rfl⟩

theorem mapToIface_keys (ord : MapOrder) (es : List (String × Node))
    (h : mapHasTypeError es = false) :
    (mapToIface ord es).map Prod.fst = es.map Prod.fst := by
  induction es with
  | nil => simp [mapToIface]
  | cons p rest ih =>
    obtain ⟨k, n⟩ := p
    rw [mapHasTypeError, Bool.or_eq_false_iff] at h
    obtain ⟨v, hv⟩ := toIface_isSome ord n h.1
    rw [mapToIface, hv]
    simp [ih h.2]

theorem nodup_of_hasDupKeys_false (es : List (String × Node)) (h : hasDupKeys es = false) :
    (es.map Prod.fst).Nodup := by
  simpa [hasDupKeys] using h

theorem yamlDecodeMap_map (ord : MapOrder) (entries : List (String × Node)) (rest : YamlStream)
    (h : Node.hasTypeError (Node.map entries) = false) :
    yamlDecodeMap ord (YamlStream.doc (Node.map entries) rest) =
      (none, some (ord (mapToIface ord entries)), rest) := by
  rw [Node.hasTypeError_map, Bool.or_eq_false_iff] at h
  simp [yamlDecodeMap, h.1, h.2]

theorem yamlDecodeMap_seq (ord : MapOrder) (items : List Node) (rest : YamlStream) :
    yamlDecodeMap ord (YamlStream.doc (Node.seq items) rest) =
      (some "yaml: unmarshal errors", none, rest) := by
  simp [yamlDecodeMap]

theorem IsList_fresh (ord : MapOrder) (raw : YamlStream) :
    (NewDecoder raw).IsList ord =
      match yamlDecodeMap ord raw with
      | (some _, _, dec1) =>
        (true, { isList := some true, raw := raw, m := none,
                 l := (yamlDecodeList ord dec1).2.1 })
      | (none, m, _) =>
        (false, { isList := some false, raw := raw, m := m, l := none }) := by
  simp only [Decoder.IsList, NewDecoder]

theorem reverse_Legal : MapOrder.Legal List.reverse := fun m => List.reverse_perm m

/-! ## C1: key order -/

/-- C1, as stated, fails: Go may enumerate the decoded map of the document
`a: 1`, `b: 2` as `b`, `a` (reversal is a legal enumeration), and then the key order list
returned by `Parse` is `["b", "a"]`, not the document order `["a", "b"]`. -/
theorem C1_document_order_lost :
    MapOrder.Legal List.reverse ∧
    (Parse List.reverse (NewDecoder (YamlStream.doc
        (Node.map [("a", Node.int 1), ("b", Node.int 2)]) YamlStream.eof))).1
      = Except.ok (Value.dict ["b", "a"] [("b", Value.int 2), ("a", Value.int 1)]) ∧
    ["b", "a"] ≠ [("a", Node.int 1), ("b", Node.int 2)].map Prod.fst :=
  ⟨reverse_Legal, rfl, by decide⟩

/-- C1, amended: for a document whose root mapping has the keys `k1..kn` (no mapping in it
repeating a key), `Parse` returns an OrderedMap whose key order list is the order in which
Go enumerates the decoded map: a duplicate-free permutation of `[k1..kn]`, equal to
`[k1..kn]` in the runs where the enumeration follows the document. For a nested raw
mapping `dfsDecode` likewise lists the keys in the order of enumeration. -/
theorem C1_key_order_is_enumeration_order (ord : MapOrder) (hord : MapOrder.Legal ord)
    (entries : List (String × Node)) (rest : YamlStream)
    (hdoc : Node.hasTypeError (Node.map entries) = false) :
    (∃ d : Dict,
      (Parse ord (NewDecoder (YamlStream.doc (Node.map entries) rest))).1
        = Except.ok d.toValue ∧
      d.Keys = (ord (mapToIface ord entries)).map Prod.fst ∧
      d.Keys.Perm (entries.map Prod.fst) ∧
      d.Keys.Nodup ∧
      (ord (mapToIface ord entries) = mapToIface ord entries →
        d.Keys = entries.map Prod.fst)) ∧
    (∀ m : List (String × Value), (m.map Prod.fst).Nodup →
      ∃ d : Dict, dfsDecode (Value.rawMap m) = Except.ok d.toValue ∧
        d.Keys = m.map Prod.fst) := by
  have hnested : ∀ m : List (String × Value), (m.map Prod.fst).Nodup →
      ∃ d : Dict, dfsDecodeMap m NewDict = Except.ok d ∧ d.Keys = m.map Prod.fst := by
    intro m hm
    obtain ⟨d, hd⟩ := dfsDecodeMap_ok m NewDict
    refine ⟨d, hd, ?_⟩
    rw [dfsDecodeMap_Keys m _ _ NewDict_WF hd hm (by simp [NewDict])]
    simp [NewDict]
  have hsplit := hdoc
  rw [Node.hasTypeError_map, Bool.or_eq_false_iff] at hsplit
  have hkeys : (mapToIface ord entries).map Prod.fst = entries.map Prod.fst :=
    mapToIface_keys ord entries hsplit.2
  have hperm : ((ord (mapToIface ord entries)).map Prod.fst).Perm (entries.map Prod.fst) := by
    rw [← hkeys]
    exact (hord _).map _
  have hnd : ((ord (mapToIface ord entries)).map Prod.fst).Nodup :=
    hperm.nodup_iff.2 (nodup_of_hasDupKeys_false entries hsplit.1)
  refine ⟨?_, ?_⟩
  · obtain ⟨d, hd, hk⟩ := hnested _ hnd
    refine ⟨d, ?_, hk, hk ▸ hperm, hk ▸ hnd, ?_⟩
    · simp [Parse, IsList_fresh, yamlDecodeMap_map ord entries rest hdoc, decodeDict, hd]
    · intro hsame
      rw [hk, hsame, hkeys]
  · intro m hm
    obtain ⟨d, hd, hk⟩ := hnested m hm
    exact ⟨d, by simp [dfsDecode, hd], hk⟩

/-- The amended C1 at the document `a: 1`, `b: 2` enumerated in reverse. -/
theorem C1_key_order_is_enumeration_order_witness :
    MapOrder.Legal List.reverse ∧
    Node.hasTypeError (Node.map [("a", Node.int 1), ("b", Node.int 2)]) = false ∧
    ((∃ d : Dict,
      (Parse List.reverse (NewDecoder (YamlStream.doc
          (Node.map [("a", Node.int 1), ("b", Node.int 2)]) YamlStream.eof))).1
        = Except.ok d.toValue ∧
      d.Keys = (List.reverse (mapToIface List.reverse
          [("a", Node.int 1), ("b", Node.int 2)])).map Prod.fst ∧
      d.Keys.Perm ([("a", Node.int 1), ("b", Node.int 2)].map Prod.fst) ∧
      d.Keys.Nodup ∧
      (List.reverse (mapToIface List.reverse [("a", Node.int 1), ("b", Node.int 2)])
          = mapToIface List.reverse [("a", Node.int 1), ("b", Node.int 2)] →
        d.Keys = [("a", Node.int 1), ("b", Node.int 2)].map Prod.fst)) ∧
    (∀ m : List (String × Value), (m.map Prod.fst).Nodup →
      ∃ d : Dict, dfsDecode (Value.rawMap m) = Except.ok d.toValue ∧
        d.Keys = m.map Prod.fst)) :=
  ⟨reverse_Legal, by decide,
    C1_key_order_is_enumeration_order List.reverse reverse_Legal
      [("a", Node.int 1), ("b", Node.int 2)] YamlStream.eof (by decide)⟩

/-! ## C2: a document rooted in a sequence -/

/-- C2 fails on the code. `IsList` makes its second `Decode` call on the yaml decoder whose
only document the first call has already read, so for a buffer holding the single document
`[e1..en]` the list decode meets the end of the stream, `d.l` stays nil, and `Parse`
returns the empty List with no error, whatever the elements are; so it does for the
document `[1, 2, 3]`. -/
theorem C2_single_sequence_document_parses_to_empty_list :
    (∀ (ord : MapOrder) (items : List Node),
      Parse ord (NewDecoder (YamlStream.doc (Node.seq items) YamlStream.eof)) =
        (Except.ok (Value.array []),
          { isList := some true, raw := YamlStream.doc (Node.seq items) YamlStream.eof,
            m := none, l := none })) ∧
    (Parse id (NewDecoder (YamlStream.doc
        (Node.seq [Node.int 1, Node.int 2, Node.int 3]) YamlStream.eof))).1 =
      Except.ok (Value.array []) := by
  refine ⟨?_, rfl⟩
  intro ord items
  simp [Parse, IsList_fresh, yamlDecodeMap_seq, yamlDecodeList, decodeArray, dfsDecodeArray]

/-! ## C3: classification of the root -/

/-- C3: on a fresh decoder `IsList` returns false exactly when the trial decode of the
buffer as a string-keyed mapping returns no error, and then the decoded mapping is the one
retained; it returns true exactly when that decode returns an error. A document whose
root is a mapping (with no repeated key in it) is reported Dict-rooted and its decoded
mapping is retained; a document whose root is a sequence is reported List-rooted. -/
theorem C3_root_classification (ord : MapOrder) (raw : YamlStream)
    (entries : List (String × Node)) (items : List Node) (rest : YamlStream) :
    (((NewDecoder raw).IsList ord).1 = false ↔ (yamlDecodeMap ord raw).1 = none) ∧
    (((NewDecoder raw).IsList ord).1 = true ↔ (yamlDecodeMap ord raw).1 ≠ none) ∧
    ((yamlDecodeMap ord raw).1 = none →
      ((NewDecoder raw).IsList ord).2.m = (yamlDecodeMap ord raw).2.1) ∧
    (Node.hasTypeError (Node.map entries) = false →
      ((NewDecoder (YamlStream.doc (Node.map entries) rest)).IsList ord).1 = false ∧
      ((NewDecoder (YamlStream.doc (Node.map entries) rest)).IsList ord).2.m =
        some (ord (mapToIface ord entries))) ∧
    ((NewDecoder (YamlStream.doc (Node.seq items) rest)).IsList ord).1 = true := by
  refine ⟨?_, ?_, ?_, ?_, ?_⟩
  · rw [IsList_fresh]
    rcases yamlDecodeMap ord raw with ⟨_ | e, m, dec1⟩ <;> simp
  · rw [IsList_fresh]
    rcases yamlDecodeMap ord raw with ⟨_ | e, m, dec1⟩ <;> simp
  · rw [IsList_fresh]
    rcases yamlDecodeMap ord raw with ⟨_ | e, m, dec1⟩ <;> simp
  · intro h
    rw [IsList_fresh, yamlDecodeMap_map ord entries rest h]
    exact ⟨rfl, rfl⟩
  · rw [IsList_fresh, yamlDecodeMap_seq]

/-- C3 at the documents `a: 1` and `[1, "x"]`. -/
theorem C3_root_classification_witness :
    (Node.hasTypeError (Node.map [("a", Node.int 1)]) = false) ∧
    ((NewDecoder (YamlStream.doc (Node.map [("a", Node.int 1)]) YamlStream.eof)).IsList id).1
      = false ∧
    ((NewDecoder (YamlStream.doc (Node.map [("a", Node.int 1)]) YamlStream.eof)).IsList id).2.m
      = some (id (mapToIface id [("a", Node.int 1)])) ∧
    ((NewDecoder (YamlStream.doc (Node.seq [Node.int 1, Node.str "x"])
        YamlStream.eof)).IsList id).1 = true :=
  have h := C3_root_classification id YamlStream.eof [("a", Node.int 1)]
    [Node.int 1, Node.str "x"] YamlStream.eof
  ⟨by decide, (h.2.2.2.1 (by decide)).1, (h.2.2.2.1 (by decide)).2, h.2.2.2.2⟩

/-! ## Lemmas on rendering -/

theorem StringifyItems_eq_map (tbl : Char → Bool) (items : List Value) :
    StringifyItems tbl items = items.map (Stringify tbl) := by
  induction items with
  | nil => simp [StringifyItems]
  | cons v rest ih => simp [StringifyItems, ih]

theorem StringifyValues_lookup (tbl : Char → Bool) (values : List (String × Value))
    (key : String) :
    ((StringifyValues tbl values).lookup key).getD "null" =
      Stringify tbl (mapIndex values key) := by
  induction values with
  | nil => simp [StringifyValues, mapIndex, Stringify]
  | cons p rest ih =>
    obtain ⟨k, v⟩ := p
    by_cases h : key = k
    · simp [StringifyValues, mapIndex, List.lookup, h]
    · have hb : (key == k) = false := by simpa using h
      simpa [StringifyValues, mapIndex, List.lookup, hb] using ih

theorem intercalate_go_eq (sep : String) (xs : List String) :
    ∀ acc : String, String.intercalate.go acc sep xs = acc ++ String.intercalate.go "" sep xs := by
  induction xs with
  | nil => intro acc; simp [String.intercalate.go]
  | cons x rest ih =>
    intro acc
    rw [String.intercalate.go, ih, String.intercalate.go, ih ("" ++ sep ++ x)]
    simp [String.append_assoc]

theorem intercalate_cons_cons (sep x y : String) (rest : List String) :
    sep.intercalate (x :: y :: rest) = x ++ sep ++ sep.intercalate (y :: rest) := by
  simp only [String.intercalate]
  rw [String.intercalate.go, intercalate_go_eq, intercalate_go_eq sep rest y]
  simp [String.append_assoc]

/-- The loop of the `Array` case, run from index `i` over the last `len - i` texts, appends
them to `result` separated by commas. -/
theorem arrayLoop_eq (len : Nat) (ss : List String) :
    ∀ (i : Nat) (result : String), i + ss.length = len →
      arrayLoop len i ss result = result ++ ",".intercalate ss := by
  induction ss with
  | nil => intro i result _; simp [arrayLoop, String.intercalate]
  | cons s rest ih =>
    intro i result hlen
    rw [arrayLoop]
    simp only [List.length_cons] at hlen
    cases rest with
    | nil =>
      have hlt : ¬ ((i : Int) < (len : Int) - 1) := by
        simp only [List.length_nil] at hlen
        omega
      simp [hlt, arrayLoop, String.intercalate, String.intercalate.go]
    | cons y rest' =>
      have hlt : (i : Int) < (len : Int) - 1 := by
        simp only [List.length_cons] at hlen
        omega
      simp only [hlt, if_true]
      rw [ih (i + 1) _ (by simp only [List.length_cons] at hlen ⊢; omega),
        intercalate_cons_cons]
      simp [String.append_assoc]

theorem dictLoop_eq_arrayLoop (tbl : Char → Bool) (len : Nat)
    (values : List (String × Value)) (keys : List String) :
    ∀ (i : Nat) (result : String),
      dictLoop tbl len (StringifyValues tbl values) i keys result =
        arrayLoop len i
          (keys.map fun key => Quote tbl key ++ ": " ++ Stringify tbl (mapIndex values key))
          result := by
  induction keys with
  | nil => intro i result; simp [dictLoop, arrayLoop]
  | cons key rest ih =>
    intro i result
    rw [dictLoop, List.map_cons, arrayLoop, StringifyValues_lookup]
    exact ih _ _

/-- The `*Dict` case of `Stringify` with the recursive calls where the source has them. -/
theorem Stringify_dict (tbl : Char → Bool) (keys : List String)
    (values : List (String × Value)) :
    Stringify tbl (Value.dict keys values) =
      "\x7b" ++ ",".intercalate
        (keys.map fun key => Quote tbl key ++ ": " ++ Stringify tbl (mapIndex values key))
        ++ "\x7d" := by
  rw [Stringify, dictLoop_eq_arrayLoop, arrayLoop_eq _ _ 0 _ (by simp)]

/-- The `Array` case of `Stringify` with the recursive calls where the source has them. -/
theorem Stringify_array (tbl : Char → Bool) (items : List Value) :
    Stringify tbl (Value.array items) =
      "[" ++ ",".intercalate (items.map (Stringify tbl)) ++ "]" := by
  rw [Stringify, StringifyItems_eq_map, arrayLoop_eq _ _ 0 _ (by simp)]

/-! ## C4 and C5: rendering of the containers -/

/-- C4: for a `*Dict` with key order list `[k1..kn]`, `Stringify` is the opening brace,
the entries `quote(ki)`, colon, space, `Stringify(d.Values[ki])` in that order joined by
single commas with no trailing comma, and the closing brace; the empty map renders as the
two braces alone, and the map built by inserting `a = 1` then `b = "x"` renders with
`"a": 1` first, a comma, then `"b": "x"`. -/
theorem C4_Stringify_ordered_map (tbl : Char → Bool) (d : Dict) :
    Stringify tbl d.toValue =
      "\x7b" ++ ",".intercalate
        (d.Keys.map fun key => Quote tbl key ++ ": " ++ Stringify tbl (mapIndex d.Values key))
        ++ "\x7d" ∧
    Stringify tbl NewDict.toValue = "\x7b\x7d" ∧
    Stringify tbl ((NewDict.Set "a" (Value.int 1)).Set "b" (Value.str "x")).toValue =
      "\x7b\"a\": 1,\"b\": \"x\"\x7d" :=
  ⟨Stringify_dict tbl d.Keys d.Values, rfl, rfl⟩

/-- C5: for an Array `[v1..vn]`, `Stringify` is `[`, the texts `Stringify(v1)`, ...,
`Stringify(vn)` in order joined by single commas with no trailing comma and no spaces, and
`]`; the empty list renders `[]` and the list of 1, 2, 3 renders `[1,2,3]`. -/
theorem C5_Stringify_list (tbl : Char → Bool) (items : List Value) :
    Stringify tbl (Value.array items) =
      "[" ++ ",".intercalate (items.map (Stringify tbl)) ++ "]" ∧
    Stringify tbl (Value.array []) = "[]" ∧
    Stringify tbl (Value.array [Value.int 1, Value.int 2, Value.int 3]) = "[1,2,3]" :=
  ⟨Stringify_array tbl items, rfl, rfl⟩

/-! ## C6: quoted strings -/

theorem hexVal_lowerhex (d : Nat) (h : d < 16) : hexVal (lowerhex d) = some d := by
  interval_cases d <;> rfl

theorem lowerhex_plain (d : Nat) (h : d < 16) :
    lowerhex d ≠ '"' ∧ lowerhex d ≠ '\\' := by
  interval_cases d <;> decide

theorem nibble_eq (n k : Nat) : (n >>> k) &&& 0xF = n / 2 ^ k % 16 := by
  have h : (n >>> k) &&& (2 ^ 4 - 1) = (n >>> k) % 2 ^ 4 :=
    Nat.and_pow_two_sub_one_eq_mod _ 4
  rw [Nat.shiftRight_eq_div_pow] at h
  rw [Nat.shiftRight_eq_div_pow]
  exact h

theorem low_nibble_eq (n : Nat) : n &&& 0xF = n % 16 := by
  have h : n &&& (2 ^ 4 - 1) = n % 2 ^ 4 := Nat.and_pow_two_sub_one_eq_mod _ 4
  exact h

theorem unquoteChar_x (h1 h2 : Char) (rest : List Char) :
    unquoteChar ('\\' :: 'x' :: h1 :: h2 :: rest) =
      match hexDigits [h1, h2] 0 with
      | none => none
      | some v => if v < 0x80 then some (Char.ofNat v, rest) else none := rfl

theorem unquoteChar_u (h1 h2 h3 h4 : Char) (rest : List Char) :
    unquoteChar ('\\' :: 'u' :: h1 :: h2 :: h3 :: h4 :: rest) =
      hexRune [h1, h2, h3, h4] rest := rfl

theorem unquoteChar_U (h1 h2 h3 h4 h5 h6 h7 h8 : Char) (rest : List Char) :
    unquoteChar ('\\' :: 'U' :: h1 :: h2 :: h3 :: h4 :: h5 :: h6 :: h7 :: h8 :: rest) =
      hexRune [h1, h2, h3, h4, h5, h6, h7, h8] rest := rfl

theorem unquoteChar_plain (c : Char) (rest : List Char) (h1 : c ≠ '"') (h2 : c ≠ '\n')
    (h3 : c ≠ '\\') : unquoteChar (c :: rest) = some (c, rest) := by
  simp [unquoteChar, h1, h2, h3]

theorem char_valid_toNat (r : Char) :
    r.toNat < 0xD800 ∨ (0xDFFF < r.toNat ∧ r.toNat < 0x110000) := r.valid

theorem char_eq_ofNat_of_toNat_eq {r : Char} {n : Nat} (h : r.toNat = n) : r = Char.ofNat n := by
  rw [← h, Char.ofNat_toNat]

/-- Unquoting reads back the rune that `appendEscapedRune` wrote, and leaves the rest. -/
theorem unquoteChar_appendEscapedRune (tbl : Char → Bool) (r : Char) (rest : List Char) :
    unquoteChar (appendEscapedRune tbl r ++ rest) = some (r, rest) := by
  unfold appendEscapedRune
  by_cases h1 : r = '"' ∨ r = '\\'
  · rw [if_pos h1]
    rcases h1 with h | h <;> subst h <;> rfl
  rw [if_neg h1]
  by_cases h2 : IsPrint tbl r = true
  · rw [if_pos h2]
    have hq : r ≠ '"' := fun e => h1 (Or.inl e)
    have hb : r ≠ '\\' := fun e => h1 (Or.inr e)
    have hn : r ≠ '\n' := by
      intro e
      subst e
      have hnl : IsPrint tbl '\n' = false := rfl
      rw [hnl] at h2
      cases h2
    exact unquoteChar_plain r rest hq hn hb
  rw [if_neg h2]
  by_cases h3 : r.toNat = 7
  · rw [if_pos h3, char_eq_ofNat_of_toNat_eq h3]; rfl
  rw [if_neg h3]
  by_cases h4 : r.toNat = 8
  · rw [if_pos h4, char_eq_ofNat_of_toNat_eq h4]; rfl
  rw [if_neg h4]
  by_cases h5 : r.toNat = 12
  · rw [if_pos h5, char_eq_ofNat_of_toNat_eq h5]; rfl
  rw [if_neg h5]
  by_cases h6 : r.toNat = 10
  · rw [if_pos h6, char_eq_ofNat_of_toNat_eq h6]; rfl
  rw [if_neg h6]
  by_cases h7 : r.toNat = 13
  · rw [if_pos h7, char_eq_ofNat_of_toNat_eq h7]; rfl
  rw [if_neg h7]
  by_cases h8 : r.toNat = 9
  · rw [if_pos h8, char_eq_ofNat_of_toNat_eq h8]; rfl
  rw [if_neg h8]
  by_cases h9 : r.toNat = 11
  · rw [if_pos h9, char_eq_ofNat_of_toNat_eq h9]; rfl
  rw [if_neg h9]
  by_cases h10 : r.toNat < 0x20 ∨ r.toNat = 0x7F
  · rw [if_pos h10]
    have ha : (r.toNat % 256) >>> 4 = r.toNat / 16 := by
      rw [Nat.shiftRight_eq_div_pow]; omega
    have hb : (r.toNat % 256) &&& 0xF = r.toNat % 16 := by
      rw [low_nibble_eq]; omega
    rw [ha, hb]
    show unquoteChar ('\\' :: 'x' :: _ :: _ :: rest) = _
    rw [unquoteChar_x]
    simp only [hexDigits, hexVal_lowerhex (r.toNat / 16) (by omega),
      hexVal_lowerhex (r.toNat % 16) (by omega)]
    have hv : (0 * 16 + r.toNat / 16) * 16 + r.toNat % 16 = r.toNat := by omega
    rw [hv, if_pos (by omega), Char.ofNat_toNat]
  rw [if_neg h10]
  by_cases h11 : r.toNat < 0x10000
  · rw [if_pos h11]
    show unquoteChar ('\\' :: 'u' :: _ :: _ :: _ :: _ :: rest) = _
    rw [unquoteChar_u]
    simp only [nibble_eq]
    simp only [hexRune, hexDigits, hexVal_lowerhex (r.toNat / 2 ^ 12 % 16) (by omega),
      hexVal_lowerhex (r.toNat / 2 ^ 8 % 16) (by omega),
      hexVal_lowerhex (r.toNat / 2 ^ 4 % 16) (by omega),
      hexVal_lowerhex (r.toNat / 2 ^ 0 % 16) (by omega)]
    have hv : (((0 * 16 + r.toNat / 2 ^ 12 % 16) * 16 + r.toNat / 2 ^ 8 % 16) * 16
        + r.toNat / 2 ^ 4 % 16) * 16 + r.toNat / 2 ^ 0 % 16 = r.toNat := by omega
    rw [hv, if_pos (char_valid_toNat r), Char.ofNat_toNat]
  rw [if_neg h11]
  have hlt := char_valid_toNat r
  show unquoteChar ('\\' :: 'U' :: _ :: _ :: _ :: _ :: _ :: _ :: _ :: _ :: rest) = _
  rw [unquoteChar_U]
  simp only [nibble_eq]
  simp only [hexRune, hexDigits, hexVal_lowerhex (r.toNat / 2 ^ 28 % 16) (by omega),
    hexVal_lowerhex (r.toNat / 2 ^ 24 % 16) (by omega),
    hexVal_lowerhex (r.toNat / 2 ^ 20 % 16) (by omega),
    hexVal_lowerhex (r.toNat / 2 ^ 16 % 16) (by omega),
    hexVal_lowerhex (r.toNat / 2 ^ 12 % 16) (by omega),
    hexVal_lowerhex (r.toNat / 2 ^ 8 % 16) (by omega),
    hexVal_lowerhex (r.toNat / 2 ^ 4 % 16) (by omega),
    hexVal_lowerhex (r.toNat / 2 ^ 0 % 16) (by omega)]
  have hv : (((((((0 * 16 + r.toNat / 2 ^ 28 % 16) * 16 + r.toNat / 2 ^ 24 % 16) * 16
      + r.toNat / 2 ^ 20 % 16) * 16 + r.toNat / 2 ^ 16 % 16) * 16
      + r.toNat / 2 ^ 12 % 16) * 16 + r.toNat / 2 ^ 8 % 16) * 16
      + r.toNat / 2 ^ 4 % 16) * 16 + r.toNat / 2 ^ 0 % 16 = r.toNat := by omega
  rw [hv, if_pos hlt, Char.ofNat_toNat]

theorem appendEscapedRune_length_pos (tbl : Char → Bool) (r : Char) :
    0 < (appendEscapedRune tbl r).length := by
  cases h : appendEscapedRune tbl r with
  | nil =>
    have hu := unquoteChar_appendEscapedRune tbl r []
    rw [h] at hu
    cases hu
  | cons c cs => simp

/-- Unquoting the escaped body gives the runes back, once the fuel covers the body. -/
theorem unquoteBody_quoteBody (tbl : Char → Bool) (cs : List Char) :
    ∀ fuel, (quoteBody tbl cs).length ≤ fuel → unquoteBody fuel (quoteBody tbl cs) = some cs := by
  induction cs with
  | nil => intro fuel _; cases fuel <;> rfl
  | cons r rest ih =>
    intro fuel hfuel
    have hpos := appendEscapedRune_length_pos tbl r
    have hstep := unquoteChar_appendEscapedRune tbl r (quoteBody tbl rest)
    rw [quoteBody] at hfuel ⊢
    rw [List.length_append] at hfuel
    cases hq : appendEscapedRune tbl r ++ quoteBody tbl rest with
    | nil =>
      rw [hq] at hstep
      cases hstep
    | cons c cs' =>
      cases fuel with
      | zero => omega
      | succ f =>
        rw [unquoteBody, ← hq, hstep]
        simp only []
        rw [ih f (by omega)]

theorem Unquote_Quote (tbl : Char → Bool) (s : String) : Unquote (Quote tbl s) = some s := by
  have hlen : (quoteBody tbl s.data).length ≤ (quoteBody tbl s.data ++ ['"']).length := by
    simp
  have hbody := unquoteBody_quoteBody tbl s.data _ hlen
  simp only [List.length_append, List.length_singleton] at hbody
  simp [Unquote, Quote, hbody]

/-- C6: for every string `s`, `Stringify(s)` is a double-quoted literal: a double quote,
the runes of `s` escaped one after the other, and a double quote. A double quote becomes
backslash-quote, a backslash becomes two backslashes, a control character (below U+0020,
or U+007F) becomes an escape sequence that starts with a backslash; unquoting the literal
yields `s`, so its body has no unescaped double quote. For `he said "hi"` the result is
`"he said \"hi\""`. -/
theorem C6_Stringify_string (tbl : Char → Bool) (s : String) :
    Stringify tbl (Value.str s) = String.mk ('"' :: (quoteBody tbl s.data ++ ['"'])) ∧
    Unquote (Stringify tbl (Value.str s)) = some s ∧
    (∀ rest : List Char, quoteBody tbl ('"' :: rest) = '\\' :: '"' :: quoteBody tbl rest) ∧
    (∀ rest : List Char, quoteBody tbl ('\\' :: rest) = '\\' :: '\\' :: quoteBody tbl rest) ∧
    (∀ (c : Char) (rest : List Char), c.toNat < 0x20 ∨ c.toNat = 0x7F →
      ∃ esc : List Char, quoteBody tbl (c :: rest) = '\\' :: (esc ++ quoteBody tbl rest) ∧
        '"' ∉ esc ∧ '\\' ∉ esc) ∧
    Stringify tbl (Value.str "he said \"hi\"") = "\"he said \\\"hi\\\"\"" := by
  refine ⟨by rw [Stringify, Quote], ?_, fun rest => rfl, fun rest => rfl, ?_, rfl⟩
  · rw [Stringify, Unquote_Quote]
  · intro c rest hc
    have h1 : ¬ (c = '"' ∨ c = '\\') := by
      rintro (e | e) <;> subst e <;> revert hc <;> decide
    have h2 : ¬ IsPrint tbl c = true := by
      unfold IsPrint
      rw [if_pos (by omega), if_neg (by omega), if_neg (by omega)]
      simp
    rw [quoteBody]
    unfold appendEscapedRune
    rw [if_neg h1, if_neg h2]
    by_cases h3 : c.toNat = 7
    · rw [if_pos h3]; exact ⟨['a'], rfl, by decide, by decide⟩
    rw [if_neg h3]
    by_cases h4 : c.toNat = 8
    · rw [if_pos h4]; exact ⟨['b'], rfl, by decide, by decide⟩
    rw [if_neg h4]
    by_cases h5 : c.toNat = 12
    · rw [if_pos h5]; exact ⟨['f'], rfl, by decide, by decide⟩
    rw [if_neg h5]
    by_cases h6 : c.toNat = 10
    · rw [if_pos h6]; exact ⟨['n'], rfl, by decide, by decide⟩
    rw [if_neg h6]
    by_cases h7 : c.toNat = 13
    · rw [if_pos h7]; exact ⟨['r'], rfl, by decide, by decide⟩
    rw [if_neg h7]
    by_cases h8 : c.toNat = 9
    · rw [if_pos h8]; exact ⟨['t'], rfl, by decide, by decide⟩
    rw [if_neg h8]
    by_cases h9 : c.toNat = 11
    · rw [if_pos h9]; exact ⟨['v'], rfl, by decide, by decide⟩
    rw [if_neg h9, if_pos hc]
    have ha : (c.toNat % 256) >>> 4 < 16 := by
      rw [Nat.shiftRight_eq_div_pow]; omega
    have hb : (c.toNat % 256) &&& 0xF < 16 := by
      rw [low_nibble_eq]; omega
    refine ⟨['x', lowerhex ((c.toNat % 256) >>> 4), lowerhex ((c.toNat % 256) &&& 0xF)],
      rfl, ?_, ?_⟩
    · simp only [List.mem_cons, List.mem_singleton, List.not_mem_nil, or_false, not_or]
      exact ⟨by decide, Ne.symm (lowerhex_plain _ ha).1, Ne.symm (lowerhex_plain _ hb).1⟩
    · simp only [List.mem_cons, List.mem_singleton, List.not_mem_nil, or_false, not_or]
      exact ⟨by decide, Ne.symm (lowerhex_plain _ ha).2, Ne.symm (lowerhex_plain _ hb).2⟩

/-- C6 at the newline, a control character, followed by the letter a. -/
theorem C6_Stringify_string_witness :
    ('\n'.toNat < 0x20 ∨ '\n'.toNat = 0x7F) ∧
    ∃ esc : List Char,
      quoteBody (fun _ => true) ['\n', 'a'] = '\\' :: (esc ++ quoteBody (fun _ => true) ['a']) ∧
        '"' ∉ esc ∧ '\\' ∉ esc :=
  ⟨by decide, (C6_Stringify_string (fun _ => true) "").2.2.2.2.1 '\n' ['a'] (by decide)⟩

/-! ## C7: normalization of a mapping -/

theorem dfsDecode_rawMap_of_loop {m : List (String × Value)} {d : Dict}
    (h : dfsDecodeMap m NewDict = Except.ok d) :
    dfsDecode (Value.rawMap m) = Except.ok d.toValue := by
  simp [dfsDecode, h]

theorem dfsDecode_array_of_loop {items out : List Value}
    (h : dfsDecodeArray items [] = Except.ok out) :
    dfsDecode (Value.array items) = Except.ok (Value.array out) := by
  simp [dfsDecode, h]

/-- C7: for a raw string-keyed mapping `m` (a Go map: its keys are distinct), `dfsDecode`,
and `decodeDict` when `m` is the retained root mapping, return an OrderedMap whose key
list has no duplicates, whose keys are exactly the keys of `m`, and in which every key `k`
maps to `dfsDecode(m[k])`. The root mapping `a: [1, 2, b: "x"]`, `c: null` normalizes, in
either order of enumeration, to an OrderedMap where `a` maps to a 3-element List whose
third element is an OrderedMap with the single key `b` mapping to `"x"`, and `c` maps to
null. -/
theorem C7_mapping_normalization (m : List (String × Value))
    (hm : (m.map Prod.fst).Nodup) :
    (∃ d : Dict,
      dfsDecode (Value.rawMap m) = Except.ok d.toValue ∧
      (∀ dec : Decoder, dec.m = some m → decodeDict dec = Except.ok d) ∧
      d.Keys.Nodup ∧
      (∀ k, k ∈ d.Keys ↔ k ∈ m.map Prod.fst) ∧
      (∀ k, k ∈ m.map Prod.fst →
        dfsDecode (mapIndex m k) = Except.ok (mapIndex d.Values k))) ∧
    (Parse id (NewDecoder (YamlStream.doc (Node.map
        [("a", Node.seq [Node.int 1, Node.int 2, Node.map [("b", Node.str "x")]]),
         ("c", Node.null)]) YamlStream.eof))).1 =
      Except.ok (Value.dict ["a", "c"]
        [("a", Value.array [Value.int 1, Value.int 2,
            Value.dict ["b"] [("b", Value.str "x")]]),
         ("c", Value.null)]) ∧
    (Parse List.reverse (NewDecoder (YamlStream.doc (Node.map
        [("a", Node.seq [Node.int 1, Node.int 2, Node.map [("b", Node.str "x")]]),
         ("c", Node.null)]) YamlStream.eof))).1 =
      Except.ok (Value.dict ["c", "a"]
        [("c", Value.null),
         ("a", Value.array [Value.int 1, Value.int 2,
            Value.dict ["b"] [("b", Value.str "x")]])]) := by
  refine ⟨?_, rfl, rfl⟩
  obtain ⟨d, hd⟩ := dfsDecodeMap_ok m NewDict
  have hwf : d.WF := dfsDecodeMap_WF m _ _ NewDict_WF hd
  refine ⟨d, dfsDecode_rawMap_of_loop hd, ?_, hwf.2, ?_, ?_⟩
  · intro dec hdec
    simp [decodeDict, hdec, hd]
  · intro k
    rw [dfsDecodeMap_mem_Keys m _ _ NewDict_WF hd k]
    simp [NewDict]
  · intro k hk
    obtain ⟨v, hv⟩ := exists_of_mem_keys m k hk
    obtain ⟨w, hw, hlook⟩ := dfsDecodeMap_lookup_of_mem m _ _ hd hm k v hv
    rw [mapIndex, mapIndex, lookup_of_mem_nodup m hm k v hv, hlook]
    exact hw

/-- C7 at the raw mapping with `a` mapped to 1 and `b` to the sequence of one null. -/
theorem C7_mapping_normalization_witness :
    ([("a", Value.int 1), ("b", Value.array [Value.null])].map Prod.fst).Nodup ∧
    ∃ d : Dict,
      dfsDecode (Value.rawMap [("a", Value.int 1), ("b", Value.array [Value.null])]) =
        Except.ok d.toValue ∧
      d.Keys.Nodup ∧
      (∀ k, k ∈ d.Keys ↔
        k ∈ [("a", Value.int 1), ("b", Value.array [Value.null])].map Prod.fst) :=
  have h := (C7_mapping_normalization
    [("a", Value.int 1), ("b", Value.array [Value.null])] (by decide)).1
  ⟨by decide, h.elim fun d hd => ⟨d, hd.1, hd.2.2.1, hd.2.2.2.1⟩⟩

/-! ## C8: normalization of a sequence -/

theorem forall₂_index {α β : Type} {R : α → β → Prop} {xs : List α} {ys : List β}
    (h : List.Forall₂ R xs ys) :
    ∀ (i : Nat) (x : α), xs[i]? = some x → ∃ y, ys[i]? = some y ∧ R x y := by
  induction h with
  | nil => intro i x hx; simp at hx
  | cons hr _ ih =>
    intro i x hx
    cases i with
    | zero =>
      simp at hx
      subst hx
      exact ⟨_, by simp, hr⟩
    | succ j =>
      simp at hx
      obtain ⟨y, hy, hxy⟩ := ih j x hx
      exact ⟨y, by simpa using hy, hxy⟩

/-- C8: for a raw sequence `[e1..en]`, `dfsDecode`, and `decodeArray` when the sequence is
the retained root list, return a List of exactly `n` elements whose `i`-th element is
`dfsDecode(ei)`; the empty raw sequence and the absent (nil) retained list yield the empty
List. -/
theorem C8_sequence_normalization (items : List Value) :
    (∃ out : List Value,
      dfsDecode (Value.array items) = Except.ok (Value.array out) ∧
      (∀ dec : Decoder, dec.l = some items → decodeArray dec = Except.ok out) ∧
      out.length = items.length ∧
      (∀ (i : Nat) (e : Value), items[i]? = some e →
        ∃ w, out[i]? = some w ∧ dfsDecode e = Except.ok w)) ∧
    dfsDecode (Value.array []) = Except.ok (Value.array []) ∧
    (∀ dec : Decoder, dec.l = some [] → decodeArray dec = Except.ok []) ∧
    (∀ dec : Decoder, dec.l = none → decodeArray dec = Except.ok []) := by
  refine ⟨?_, by simp [dfsDecode, dfsDecodeArray], ?_, ?_⟩
  · obtain ⟨out, hout⟩ := dfsDecodeArray_ok items []
    obtain ⟨ws, hws, hall⟩ := dfsDecodeArray_spec items _ _ hout
    have hout' : out = ws := by simpa using hws
    subst hout'
    refine ⟨out, dfsDecode_array_of_loop hout, ?_, hall.length_eq.symm, forall₂_index hall⟩
    intro dec hdec
    simp [decodeArray, hdec, hout]
  · intro dec hdec
    simp [decodeArray, hdec, dfsDecodeArray]
  · intro dec hdec
    simp [decodeArray, hdec, dfsDecodeArray]

/-! ## C9: the classification is cached -/

/-- C9: a second call to `IsList` returns the same boolean as the first and leaves the
decoder (buffer, retained mapping, retained list and cached flag) as the first call left
it; once the flag is set the call decodes nothing, so the outcome does not depend on the
run. -/
theorem C9_IsList_idempotent (ord ord' : MapOrder) (d : Decoder) :
    (d.IsList ord).2.IsList ord' = d.IsList ord ∧
    (d.IsList ord).2.raw = d.raw ∧
    (∀ b, d.isList = some b → d.IsList ord = (b, d)) := by
  have hset : ∀ (o : MapOrder) (d0 : Decoder) (b : Bool),
      d0.isList = some b → d0.IsList o = (b, d0) := by
    intro o d0 b hb
    simp [Decoder.IsList, hb]
  have hflag : (d.IsList ord).2.isList = some (d.IsList ord).1 ∧
      (d.IsList ord).2.raw = d.raw := by
    cases hd : d.isList with
    | some b => rw [hset ord d b hd]; exact ⟨hd, rfl⟩
    | none =>
      simp only [Decoder.IsList, hd]
      rcases hdec : yamlDecodeMap ord d.raw with ⟨_ | e, m, dec1⟩ <;> exact ⟨rfl, rfl⟩
  exact ⟨hset ord' _ _ hflag.1, hflag.2, hset ord d⟩

/-- C9 at the decoder of an empty buffer, after its first classification. -/
theorem C9_IsList_idempotent_witness :
    (NewDecoder YamlStream.eof).isList = none ∧
    ((NewDecoder YamlStream.eof).IsList id).2.isList = some true ∧
    ((NewDecoder YamlStream.eof).IsList id).2.IsList List.reverse =
      (true, ((NewDecoder YamlStream.eof).IsList id).2) :=
  ⟨rfl, rfl,
    (C9_IsList_idempotent id List.reverse ((NewDecoder YamlStream.eof).IsList id).2).2.2
      true rfl⟩

/-! ## C10: `Parse` returns no error -/

/-- C10: `Parse` returns a nil error, together with an OrderedMap when the decoder is
Dict-rooted and a List when it is List-rooted; `dfsDecode`, `decodeDict` and `decodeArray`
never return an error. -/
theorem C10_Parse_never_fails (ord : MapOrder) (dec : Decoder) :
    (∃ v, (Parse ord dec).1 = Except.ok v ∧
      ((dec.IsList ord).1 = false → ∃ d : Dict, v = d.toValue) ∧
      ((dec.IsList ord).1 = true → ∃ items : List Value, v = Value.array items)) ∧
    (∀ i : Value, ∃ v, dfsDecode i = Except.ok v) ∧
    (∀ dec' : Decoder, ∃ d, decodeDict dec' = Except.ok d) ∧
    (∀ dec' : Decoder, ∃ slice, decodeArray dec' = Except.ok slice) := by
  refine ⟨?_, dfsDecode_ok, fun dec' => dfsDecodeMap_ok _ _, fun dec' => dfsDecodeArray_ok _ _⟩
  unfold Parse
  rcases hres : dec.IsList ord with ⟨b, dec1⟩
  cases b with
  | true =>
    obtain ⟨slice, hs⟩ := dfsDecodeArray_ok (dec1.l.getD []) []
    exact ⟨Value.array slice, by simp [decodeArray, hs], by simp, fun _ => ⟨slice, rfl⟩⟩
  | false =>
    obtain ⟨d, hd⟩ := dfsDecodeMap_ok (dec1.m.getD []) NewDict
    exact ⟨d.toValue, by simp [decodeDict, hd], fun _ => ⟨d, rfl⟩, by simp⟩

/-- C10 at the decoder of the document `a: 1`. -/
theorem C10_Parse_never_fails_witness :
    ((NewDecoder (YamlStream.doc (Node.map [("a", Node.int 1)]) YamlStream.eof)).IsList id).1
      = false ∧
    ∃ v, (Parse id (NewDecoder (YamlStream.doc (Node.map [("a", Node.int 1)])
        YamlStream.eof))).1 = Except.ok v ∧ ∃ d : Dict, v = d.toValue :=
  have h := (C10_Parse_never_fails id
    (NewDecoder (YamlStream.doc (Node.map [("a", Node.int 1)]) YamlStream.eof))).1
  ⟨rfl, h.elim fun v hv => ⟨v, hv.1, hv.2.1 rfl⟩⟩

/-! ## C11: empty and malformed input -/

/-- C11: for a buffer holding at most one document on which the mapping trial decode
fails (an empty buffer and malformed YAML among them), the list decode fails too; after
`IsList` both retained raw values are absent and the flag is true, and `Parse` returns the
empty List with a nil error, which `Stringify` renders as `[]`. On the empty buffer and on
a buffer that does not parse the mapping trial decode does fail. -/
theorem C11_failed_decodes_yield_empty_list (ord : MapOrder) (tbl : Char → Bool)
    (raw : YamlStream) (hone : raw.atMostOneDocument = true)
    (hfail : (yamlDecodeMap ord raw).1 ≠ none) :
    ((yamlDecodeList ord (yamlDecodeMap ord raw).2.2).1 ≠ none ∧
      (NewDecoder raw).IsList ord =
        (true, { isList := some true, raw := raw, m := none, l := none }) ∧
      Parse ord (NewDecoder raw) =
        (Except.ok (Value.array []),
          { isList := some true, raw := raw, m := none, l := none }) ∧
      Stringify tbl (Value.array []) = "[]") ∧
    (yamlDecodeMap ord YamlStream.eof).1 ≠ none ∧
    (yamlDecodeMap ord YamlStream.bad).1 ≠ none := by
  have hrest : ∀ rest : YamlStream, rest = YamlStream.eof ∨ rest = YamlStream.bad →
      (yamlDecodeList ord rest).1 ≠ none ∧ (yamlDecodeList ord rest).2.1 = none := by
    rintro rest (h | h) <;> subst h <;> simp [yamlDecodeList]
  have hsecond : (yamlDecodeList ord (yamlDecodeMap ord raw).2.2).1 ≠ none ∧
      (yamlDecodeList ord (yamlDecodeMap ord raw).2.2).2.1 = none := by
    cases raw with
    | eof => exact hrest _ (Or.inl rfl)
    | bad => exact hrest _ (Or.inr rfl)
    | doc n rest =>
      have hr : rest = YamlStream.eof ∨ rest = YamlStream.bad := by
        cases rest with
        | eof => exact Or.inl rfl
        | bad => exact Or.inr rfl
        | doc n' rest' => simp [YamlStream.atMostOneDocument] at hone
      have hsnd : (yamlDecodeMap ord (YamlStream.doc n rest)).2.2 = rest := by
        cases n with
        | map entries =>
          simp only [yamlDecodeMap]
          split
          · rfl
          · split <;> rfl
        | null => rfl
        | bool b => rfl
        | int i => rfl
        | str s => rfl
        | seq items => rfl
      rw [hsnd]
      exact hrest rest hr
  have hIs : (NewDecoder raw).IsList ord =
      (true, { isList := some true, raw := raw, m := none, l := none }) := by
    rw [IsList_fresh]
    rcases hdec : yamlDecodeMap ord raw with ⟨_ | e, m, dec1⟩
    · rw [hdec] at hfail
      exact absurd rfl hfail
    · rw [hdec] at hsecond
      simp only [hsecond.2]
  refine ⟨⟨hsecond.1, hIs, ?_, rfl⟩, by simp [yamlDecodeMap], by simp [yamlDecodeMap]⟩
  simp [Parse, hIs, decodeArray, dfsDecodeArray]

/-- C11 at the empty buffer. -/
theorem C11_failed_decodes_yield_empty_list_witness :
    YamlStream.atMostOneDocument YamlStream.eof = true ∧
    (yamlDecodeMap id YamlStream.eof).1 ≠ none ∧
    Parse id (NewDecoder YamlStream.eof) =
      (Except.ok (Value.array []),
        { isList := some true, raw := YamlStream.eof, m := none, l := none }) :=
  ⟨rfl, by decide,
    (C11_failed_decodes_yield_empty_list id (fun _ => true) YamlStream.eof rfl
      (by decide)).1.2.2.1⟩

/-! ## C12: the fallback of `Stringify`, and the nil pointer -/

theorem itemsAsIface_eq_map (items : List Value) :
    itemsAsIface items = items.map Value.asIface := by
  induction items with
  | nil => rw [itemsAsIface]; rfl
  | cons v rest ih => rw [itemsAsIface, ih]; rfl

theorem entriesAsIface_eq_map (entries : List (String × Value)) :
    entriesAsIface entries = entries.map fun p => (p.1, Value.asIface p.2) := by
  induction entries with
  | nil => rw [entriesAsIface]; rfl
  | cons p rest ih =>
    obtain ⟨k, v⟩ := p
    rw [entriesAsIface, ih]
    rfl

/-- The loop of the `*Dict` case returns the text of the plain loop over the entries, when
the rendering of the value of every key returns a text. -/
theorem dictLoopIface_of_texts (tbl : Char → Bool) (len : Nat)
    (rendered : List (String × Except Panic String)) (text : String → String)
    (keys : List String) :
    (∀ key ∈ keys, (rendered.lookup key).getD (Except.ok "null") = Except.ok (text key)) →
    ∀ (i : Nat) (result : String),
      dictLoopIface tbl len rendered i keys result =
        Except.ok (arrayLoop len i (keys.map fun key => Quote tbl key ++ ": " ++ text key)
          result) := by
  induction keys with
  | nil => intro _ i result; rw [dictLoopIface, List.map_nil, arrayLoop]
  | cons key rest ih =>
    intro h i result
    rw [dictLoopIface, h key (List.mem_cons_self _ _), List.map_cons, arrayLoop]
    exact ih (fun k hk => h k (List.mem_cons_of_mem _ hk)) _ _

theorem StringifyIface_dict_of_texts (tbl : Char → Bool) (keys : List String)
    (values : List (String × Iface)) (text : String → String)
    (h : ∀ key ∈ keys, ((StringifyIfaceValues tbl values).lookup key).getD (Except.ok "null")
      = Except.ok (text key)) :
    StringifyIface tbl (Iface.dict keys values) =
      Except.ok ("\x7b" ++ ",".intercalate
        (keys.map fun key => Quote tbl key ++ ": " ++ text key) ++ "\x7d") := by
  rw [StringifyIface, dictLoopIface_of_texts tbl _ _ text keys h,
    arrayLoop_eq _ _ 0 _ (by simp)]

theorem StringifyIface_array_of_texts (tbl : Char → Bool) (items : List Iface)
    (texts : List String) (h : StringifyIfaceItems tbl items = Except.ok texts)
    (hlen : texts.length = items.length) :
    StringifyIface tbl (Iface.array items) =
      Except.ok ("[" ++ ",".intercalate texts ++ "]") := by
  rw [StringifyIface, h]
  simp only []
  rw [arrayLoop_eq _ _ 0 _ (by rw [hlen, Nat.zero_add])]

theorem StringifyIfaceItems_append (tbl : Char → Bool) (xs ys : List Iface)
    (tx ty : List String) (hx : StringifyIfaceItems tbl xs = Except.ok tx)
    (hy : StringifyIfaceItems tbl ys = Except.ok ty) :
    StringifyIfaceItems tbl (xs ++ ys) = Except.ok (tx ++ ty) := by
  induction xs generalizing tx with
  | nil =>
    rw [StringifyIfaceItems] at hx
    cases hx
    exact hy
  | cons v rest ih =>
    rw [StringifyIfaceItems] at hx
    rw [List.cons_append, StringifyIfaceItems]
    cases hv : StringifyIface tbl v with
    | error p => rw [hv] at hx; cases hx
    | ok t =>
      rw [hv] at hx
      simp only [] at hx ⊢
      cases hr : StringifyIfaceItems tbl rest with
      | error p => rw [hr] at hx; cases hx
      | ok tr =>
        rw [hr] at hx
        cases hx
        rw [ih tr hr]
        rfl

theorem lookup_map_ok (rendered : List (String × String)) (key : String) :
    ((rendered.map fun p => (p.1, (Except.ok p.2 : Except Panic String))).lookup key).getD
      (Except.ok "null") = Except.ok ((rendered.lookup key).getD "null") := by
  induction rendered with
  | nil => rfl
  | cons p rest ih =>
    obtain ⟨k, t⟩ := p
    by_cases h : key = k
    · simp [List.lookup, h]
    · have hb : (key == k) = false := by simpa using h
      simpa [List.lookup, hb] using ih

mutual
/-- On the values of the first embedding the two embeddings of `Stringify` agree: the
call returns, and returns the text `Stringify` gives. -/
theorem StringifyIface_asIface (tbl : Char → Bool) :
    ∀ v : Value, StringifyIface tbl (Value.asIface v) = Except.ok (Stringify tbl v)
  | Value.null => rfl
  | Value.bool b => rfl
  | Value.int n => rfl
  | Value.str s => rfl
  | Value.rawMap m => by rw [Value.asIface, StringifyIface, Stringify]
  | Value.array items => by
    rw [Value.asIface,
      StringifyIface_array_of_texts tbl _ _ (StringifyIfaceItems_asIface tbl items)
        (by rw [itemsAsIface_eq_map, List.length_map, List.length_map]),
      Stringify_array]
  | Value.dict keys values => by
    rw [Value.asIface,
      StringifyIface_dict_of_texts tbl keys _
        (fun key => Stringify tbl (mapIndex values key)), Stringify_dict]
    intro key _
    rw [StringifyIfaceValues_asIface tbl values, lookup_map_ok, StringifyValues_lookup]
theorem StringifyIfaceItems_asIface (tbl : Char → Bool) :
    ∀ items : List Value,
      StringifyIfaceItems tbl (itemsAsIface items) = Except.ok (items.map (Stringify tbl))
  | [] => rfl
  | v :: rest => by
    rw [itemsAsIface, StringifyIfaceItems, StringifyIface_asIface tbl v]
    simp only []
    rw [StringifyIfaceItems_asIface tbl rest]
    rfl
theorem StringifyIfaceValues_asIface (tbl : Char → Bool) :
    ∀ values : List (String × Value),
      StringifyIfaceValues tbl (entriesAsIface values) =
        (StringifyValues tbl values).map fun p => (p.1, (Except.ok p.2 : Except Panic String))
  | [] => rfl
  | (k, v) :: rest => by
    rw [entriesAsIface, StringifyIfaceValues, StringifyIface_asIface tbl v,
      StringifyIfaceValues_asIface tbl rest, StringifyValues]
    rfl
end

theorem dictLoopIface_ok (tbl : Char → Bool) (len : Nat)
    (rendered : List (String × Except Panic String))
    (h : ∀ key, ∃ t, (rendered.lookup key).getD (Except.ok "null") = Except.ok t)
    (keys : List String) :
    ∀ (i : Nat) (result : String), ∃ s, dictLoopIface tbl len rendered i keys result =
      Except.ok s := by
  induction keys with
  | nil => intro i result; exact ⟨result, by rw [dictLoopIface]⟩
  | cons key rest ih =>
    intro i result
    obtain ⟨t, ht⟩ := h key
    rw [dictLoopIface, ht]
    exact ih _ _

mutual
theorem StringifyIface_ok (tbl : Char → Bool) :
    ∀ v : Iface, Iface.hasNoNilDict v = true → ∃ s, StringifyIface tbl v = Except.ok s
  | Iface.null => fun _ => ⟨_, rfl⟩
  | Iface.bool b => fun _ => ⟨_, rfl⟩
  | Iface.int n => fun _ => ⟨_, rfl⟩
  | Iface.str s => fun _ => ⟨_, rfl⟩
  | Iface.rawMap m => fun _ => ⟨"unknown type", by rw [StringifyIface]⟩
  | Iface.other t => fun _ => ⟨"unknown type", by rw [StringifyIface]⟩
  | Iface.nilDict => by
    intro h
    rw [Iface.hasNoNilDict] at h
    cases h
  | Iface.array items => by
    intro h
    rw [Iface.hasNoNilDict] at h
    obtain ⟨texts, ht⟩ := StringifyIfaceItems_ok tbl items h
    rw [StringifyIface, ht]
    exact ⟨_, rfl⟩
  | Iface.dict keys values => by
    intro h
    rw [Iface.hasNoNilDict] at h
    obtain ⟨s, hs⟩ := dictLoopIface_ok tbl keys.length _
      (StringifyIfaceValues_ok tbl values h) keys 0 "\x7b"
    rw [StringifyIface, hs]
    exact ⟨_, rfl⟩
theorem StringifyIfaceItems_ok (tbl : Char → Bool) :
    ∀ items : List Iface, itemsHaveNoNilDict items = true →
      ∃ texts, StringifyIfaceItems tbl items = Except.ok texts
  | [] => fun _ => ⟨[], rfl⟩
  | v :: rest => by
    intro h
    simp only [itemsHaveNoNilDict, Bool.and_eq_true] at h
    obtain ⟨t, ht⟩ := StringifyIface_ok tbl v h.1
    obtain ⟨ts, hts⟩ := StringifyIfaceItems_ok tbl rest h.2
    rw [StringifyIfaceItems, ht]
    simp only []
    rw [hts]
    exact ⟨_, rfl⟩
theorem StringifyIfaceValues_ok (tbl : Char → Bool) :
    ∀ values : List (String × Iface), valuesHaveNoNilDict values = true →
      ∀ key, ∃ t, ((StringifyIfaceValues tbl values).lookup key).getD (Except.ok "null") =
        Except.ok t
  | [] => fun _ key => ⟨"null", rfl⟩
  | (k, v) :: rest => by
    intro h key
    simp only [valuesHaveNoNilDict, Bool.and_eq_true] at h
    rw [StringifyIfaceValues]
    by_cases hk : key = k
    · obtain ⟨t, ht⟩ := StringifyIface_ok tbl v h.1
      exact ⟨t, by simp [List.lookup, hk, ht]⟩
    · have hb : (key == k) = false := by simpa using hk
      obtain ⟨t, ht⟩ := StringifyIfaceValues_ok tbl rest h.2 key
      exact ⟨t, by simpa [List.lookup, hb] using ht⟩
end

theorem StringifyIface_unrecognized (tbl : Char → Bool) (x : Iface)
    (hx : (∃ m, x = Iface.rawMap m) ∨ (∃ t, x = Iface.other t)) :
    StringifyIface tbl x = Except.ok "unknown type" := by
  rcases hx with ⟨m, h⟩ | ⟨t, h⟩ <;> rw [h, StringifyIface]

/-- C12, as stated, fails: `Stringify` is not total. Handed a nil `*Dict`, it matches
`case *Dict` and panics on reading `v.Keys`; a nil `*Dict` that is an element of a List,
or the value of a key of an OrderedMap, aborts the rendering of the whole in the same
way. -/
theorem C12_nil_Dict_panics :
    StringifyIface (fun _ => true) Iface.nilDict = Except.error nilDereference ∧
    StringifyIface (fun _ => true)
      (Iface.array [Iface.int 1, Iface.nilDict, Iface.int 3]) = Except.error nilDereference ∧
    StringifyIface (fun _ => true)
      (Iface.dict ["k"] [("k", Iface.nilDict)]) = Except.error nilDereference ∧
    ¬ ∃ s, StringifyIface (fun _ => true) Iface.nilDict = Except.ok s :=
  ⟨rfl, rfl, rfl, fun h => h.elim fun _ hs => by cases hs⟩

/-- C12, amended: on every finite value in which no nil `*Dict` stands where the rendering
goes, `Stringify` returns a text and raises no panic; on the values of the first embedding
that text is the one `Stringify` gives there. On a value whose top-level shape is none of
nil, bool, integer, string, `*Dict` and Array (a raw string-keyed map, or a value of any
other dynamic type) it returns exactly `unknown type`; such a value nested in a List, or
stored under a key of an OrderedMap, is rendered as `unknown type` in its position,
between the renderings of its neighbours, and the rendering is not aborted. -/
theorem C12_Stringify_total_without_nil_Dict (tbl : Char → Bool) :
    (∀ v : Iface, Iface.hasNoNilDict v = true → ∃ s, StringifyIface tbl v = Except.ok s) ∧
    (∀ v : Value, StringifyIface tbl (Value.asIface v) = Except.ok (Stringify tbl v)) ∧
    (∀ v : Iface, v ≠ Iface.null → (∀ b, v ≠ Iface.bool b) → (∀ n, v ≠ Iface.int n) →
      (∀ s, v ≠ Iface.str s) → v ≠ Iface.nilDict →
      (∀ keys values, v ≠ Iface.dict keys values) → (∀ items, v ≠ Iface.array items) →
      StringifyIface tbl v = Except.ok "unknown type") ∧
    (∀ (before after : List Value) (x : Iface),
      ((∃ m, x = Iface.rawMap m) ∨ (∃ t, x = Iface.other t)) →
      StringifyIface tbl
          (Iface.array (before.map Value.asIface ++ x :: after.map Value.asIface)) =
        Except.ok ("[" ++ ",".intercalate
          (before.map (Stringify tbl) ++ "unknown type" :: after.map (Stringify tbl))
          ++ "]")) ∧
    (∀ (before after : List String) (key : String) (values : List (String × Value))
      (x : Iface), ((∃ m, x = Iface.rawMap m) ∨ (∃ t, x = Iface.other t)) →
      key ∉ before → key ∉ after →
      StringifyIface tbl (Iface.dict (before ++ key :: after)
          ((key, x) :: values.map fun p => (p.1, Value.asIface p.2))) =
        Except.ok ("\x7b" ++ ",".intercalate
          (before.map (fun k => Quote tbl k ++ ": " ++ Stringify tbl (mapIndex values k)) ++
            (Quote tbl key ++ ": " ++ "unknown type") ::
            after.map (fun k => Quote tbl k ++ ": " ++ Stringify tbl (mapIndex values k)))
          ++ "\x7d")) ∧
    StringifyIface tbl (Iface.array [Iface.int 1, Iface.rawMap [("a", Iface.nilDict)],
        Iface.other "time.Time", Iface.int 3])
      = Except.ok "[1,unknown type,unknown type,3]" ∧
    StringifyIface tbl (Iface.dict ["k", "z"]
        [("k", Iface.other "map[interface {}]interface {}"), ("z", Iface.null)])
      = Except.ok "\x7b\"k\": unknown type,\"z\": null\x7d" := by
  refine ⟨StringifyIface_ok tbl, StringifyIface_asIface tbl, ?_, ?_, ?_, rfl, rfl⟩
  · intro v h1 h2 h3 h4 h5 h6 h7
    cases v with
    | null => exact absurd rfl h1
    | bool b => exact absurd rfl (h2 b)
    | int n => exact absurd rfl (h3 n)
    | str s => exact absurd rfl (h4 s)
    | nilDict => exact absurd rfl h5
    | dict keys values => exact absurd rfl (h6 keys values)
    | array items => exact absurd rfl (h7 items)
    | rawMap m => rw [StringifyIface]
    | other t => rw [StringifyIface]
  · intro before after x hx
    have hxt : StringifyIfaceItems tbl [x] = Except.ok ["unknown type"] := by
      rw [StringifyIfaceItems, StringifyIface_unrecognized tbl x hx]
      rfl
    have hb := StringifyIfaceItems_asIface tbl before
    have ha := StringifyIfaceItems_asIface tbl after
    rw [itemsAsIface_eq_map] at hb ha
    have hall := StringifyIfaceItems_append tbl _ _ _ _ hb
      (StringifyIfaceItems_append tbl [x] _ _ _ hxt ha)
    exact StringifyIface_array_of_texts tbl _ _ hall (by simp)
  · intro before after key values x hx hkb hka
    have hrender : StringifyIfaceValues tbl
        ((key, x) :: values.map fun p => (p.1, Value.asIface p.2)) =
        (key, Except.ok "unknown type") ::
          (StringifyValues tbl values).map
            fun p => (p.1, (Except.ok p.2 : Except Panic String)) := by
      rw [← entriesAsIface_eq_map, StringifyIfaceValues, StringifyIface_unrecognized tbl x hx,
        StringifyIfaceValues_asIface]
    rw [StringifyIface_dict_of_texts tbl _ _
      (fun k => if k = key then "unknown type" else Stringify tbl (mapIndex values k))]
    · have hmap : ∀ ks : List String, key ∉ ks →
          (ks.map fun k => Quote tbl k ++ ": " ++
            (if k = key then "unknown type" else Stringify tbl (mapIndex values k))) =
          ks.map fun k => Quote tbl k ++ ": " ++ Stringify tbl (mapIndex values k) := by
        intro ks hks
        apply List.map_congr_left
        intro k hk
        have hne : k ≠ key := fun e => hks (e ▸ hk)
        rw [if_neg hne]
      rw [List.map_append, List.map_cons, hmap before hkb, hmap after hka, if_pos rfl]
    · intro k _
      rw [hrender]
      by_cases hk : k = key
      · rw [if_pos hk, hk]
        simp [List.lookup]
      · have hb : (k == key) = false := by simpa using hk
        rw [if_neg hk, List.lookup, hb]
        simp only []
        rw [lookup_map_ok, StringifyValues_lookup]

/-- The amended C12 at a List that holds a value of a foreign type and no nil `*Dict`. -/
theorem C12_Stringify_total_without_nil_Dict_witness :
    Iface.hasNoNilDict (Iface.array [Iface.int 1, Iface.other "time.Time"]) = true ∧
    (∃ s, StringifyIface (fun _ => true)
      (Iface.array [Iface.int 1, Iface.other "time.Time"]) = Except.ok s) ∧
    ((∃ m, Iface.other "time.Time" = Iface.rawMap m) ∨
      (∃ t, Iface.other "time.Time" = Iface.other t)) ∧
    StringifyIface (fun _ => true)
        (Iface.array ([Value.int 1].map Value.asIface ++
          Iface.other "time.Time" :: [Value.null].map Value.asIface)) =
      Except.ok ("[" ++ ",".intercalate
        ([Value.int 1].map (Stringify (fun _ => true)) ++
          "unknown type" :: [Value.null].map (Stringify (fun _ => true))) ++ "]") :=
  have h := C12_Stringify_total_without_nil_Dict (fun _ => true)
  ⟨rfl, h.1 _ rfl, Or.inr ⟨"time.Time", rfl⟩,
    h.2.2.2.1 [Value.int 1] [Value.null] (Iface.other "time.Time")
      (Or.inr ⟨"time.Time", rfl⟩)⟩

/-! ## C14: integers -/

theorem digitChar_toNat (k : Nat) (h : k < 10) : (Nat.digitChar k).toNat = 48 + k := by
  interval_cases k <;> rfl

theorem decimalValue_append_singleton (pre : List Char) (d : Char) :
    decimalValue (pre ++ [d]) = 10 * decimalValue pre + (d.toNat - 48) := by
  simp [decimalValue, List.foldl_append]

/-- The digits that `Nat.toDigitsCore` puts in front of `ds` are the canonical numeral of
`n`, once the fuel exceeds `n`. -/
theorem toDigitsCore_canonical (fuel : Nat) :
    ∀ (n : Nat) (ds : List Char), n < fuel →
      ∃ pre, Nat.toDigitsCore 10 fuel n ds = pre ++ ds ∧ IsCanonicalNumeral pre n := by
  induction fuel with
  | zero => intro n ds h; omega
  | succ f ih =>
    intro n ds h
    have hd : (Nat.digitChar (n % 10)).toNat = 48 + n % 10 :=
      digitChar_toNat (n % 10) (Nat.mod_lt _ (by decide))
    rw [Nat.toDigitsCore]
    by_cases h0 : n / 10 = 0
    · rw [if_pos h0]
      refine ⟨[Nat.digitChar (n % 10)], rfl, by simp, ?_, ?_, ?_⟩
      · intro c hc
        rw [List.mem_singleton.1 hc]
        simp only [isDecimalDigit, hd, decide_eq_true_eq]
        omega
      · simp only [decimalValue, List.foldl_cons, List.foldl_nil, hd]
        omega
      · intro hhead
        simp only [List.head?_cons, Option.some.injEq] at hhead
        rw [hhead]
    · rw [if_neg h0]
      obtain ⟨pre, hpre, hne, hdig, hval, hlead⟩ :=
        ih (n / 10) (Nat.digitChar (n % 10) :: ds) (by omega)
      refine ⟨pre ++ [Nat.digitChar (n % 10)], by rw [hpre]; simp, by simp, ?_, ?_, ?_⟩
      · intro c hc
        rcases List.mem_append.1 hc with hc | hc
        · exact hdig c hc
        · rw [List.mem_singleton.1 hc]
          simp only [isDecimalDigit, hd, decide_eq_true_eq]
          omega
      · rw [decimalValue_append_singleton, hval, hd]
        omega
      · intro hhead
        exfalso
        cases pre with
        | nil => exact hne rfl
        | cons c cs =>
          simp only [List.cons_append, List.head?_cons] at hhead
          have hz := hlead hhead
          rw [hz] at hval
          exact h0 hval.symm

theorem Nat_repr_canonical (n : Nat) : IsCanonicalNumeral (Nat.repr n).data n := by
  obtain ⟨pre, hpre, hcan⟩ := toDigitsCore_canonical (n + 1) n [] (Nat.lt_succ_self n)
  have hdata : (Nat.repr n).data = pre := by
    simp only [Nat.repr, Nat.toDigits, List.asString, hpre, List.append_nil]
  rw [hdata]
  exact hcan

/-- C14: for every integer `n`, `Stringify(n)` is the canonical base-10 numeral of `n`:
for `n` at least 0 the decimal digits of `n`, with no leading zero (zero itself is `0`),
and for a negative `n` a minus sign followed by the numeral of its absolute value; there is
no quote and no padding, as the text has no other character. `Stringify(42)` is `42`. -/
theorem C14_Stringify_integer (tbl : Char → Bool) (n : Int) :
    (0 ≤ n → IsCanonicalNumeral (Stringify tbl (Value.int n)).data n.toNat) ∧
    (n < 0 → ∃ ds, (Stringify tbl (Value.int n)).data = '-' :: ds ∧
      IsCanonicalNumeral ds n.natAbs ∧ ds ≠ ['0']) ∧
    Stringify tbl (Value.int 42) = "42" ∧
    Stringify tbl (Value.int 0) = "0" ∧
    Stringify tbl (Value.int (-7)) = "-7" := by
  refine ⟨?_, ?_, rfl, rfl, rfl⟩
  · intro hn
    cases n with
    | ofNat k =>
      rw [Stringify, formatInt]
      exact Nat_repr_canonical k
    | negSucc k => exact absurd hn (by simp [Int.negSucc_lt_zero])
  · intro hn
    cases n with
    | ofNat k => exact absurd hn (by simp)
    | negSucc k =>
      have hcan := Nat_repr_canonical (k + 1)
      refine ⟨(Nat.repr (k + 1)).data, ?_, hcan, ?_⟩
      · rw [Stringify, formatInt]
        rfl
      · intro hz
        have hval := hcan.2.2.1
        rw [hz] at hval
        simp [decimalValue] at hval

/-- C14 at 42 and at -7. -/
theorem C14_Stringify_integer_witness :
    (0 : Int) ≤ 42 ∧
    IsCanonicalNumeral (Stringify (fun _ => true) (Value.int 42)).data (42 : Int).toNat ∧
    (-7 : Int) < 0 ∧
    ∃ ds, (Stringify (fun _ => true) (Value.int (-7))).data = '-' :: ds ∧
      IsCanonicalNumeral ds (-7 : Int).natAbs ∧ ds ≠ ['0'] :=
  ⟨by decide, (C14_Stringify_integer (fun _ => true) 42).1 (by decide), by decide,
    (C14_Stringify_integer (fun _ => true) (-7)).2.1 (by decide)⟩

/-! ## C13: the output is a single line -/

theorem IsPrint_ascii (tbl : Char → Bool) (c : Char) (h1 : 0x20 ≤ c.toNat)
    (h2 : c.toNat ≤ 0x7E) : IsPrint tbl c = true := by
  unfold IsPrint
  rw [if_pos (by omega), if_pos ⟨h1, h2⟩]

theorem lowerhex_printable (tbl : Char → Bool) (d : Nat) : IsPrint tbl (lowerhex d) = true := by
  by_cases h : d < 16
  · interval_cases d <;> rfl
  · have hd : lowerhex d = '0' := by
      unfold lowerhex
      exact List.getD_eq_default _ _ (by simp only [String.length_data]; exact Nat.le_of_not_lt h)
    rw [hd]
    rfl

theorem appendEscapedRune_printable (tbl : Char → Bool) (r : Char) :
    ∀ c ∈ appendEscapedRune tbl r, IsPrint tbl c = true := by
  have hbs : IsPrint tbl '\\' = true := rfl
  unfold appendEscapedRune
  by_cases h1 : r = '"' ∨ r = '\\'
  · rw [if_pos h1]
    intro c hc
    simp only [List.mem_cons, List.mem_singleton, List.not_mem_nil, or_false] at hc
    rcases hc with hc | hc
    · rw [hc]; rfl
    · rw [hc]
      rcases h1 with h | h <;> rw [h] <;> rfl
  rw [if_neg h1]
  by_cases h2 : IsPrint tbl r = true
  · rw [if_pos h2]
    intro c hc
    rw [List.mem_singleton.1 hc]
    exact h2
  rw [if_neg h2]
  have hletter : ∀ x : Char, IsPrint tbl x = true →
      ∀ c ∈ ['\\', x], IsPrint tbl c = true := by
    intro x hx c hc
    simp only [List.mem_cons, List.mem_singleton, List.not_mem_nil, or_false] at hc
    rcases hc with hc | hc <;> rw [hc]
    · rfl
    · exact hx
  by_cases h3 : r.toNat = 7
  · rw [if_pos h3]; exact hletter 'a' rfl
  rw [if_neg h3]
  by_cases h4 : r.toNat = 8
  · rw [if_pos h4]; exact hletter 'b' rfl
  rw [if_neg h4]
  by_cases h5 : r.toNat = 12
  · rw [if_pos h5]; exact hletter 'f' rfl
  rw [if_neg h5]
  by_cases h6 : r.toNat = 10
  · rw [if_pos h6]; exact hletter 'n' rfl
  rw [if_neg h6]
  by_cases h7 : r.toNat = 13
  · rw [if_pos h7]; exact hletter 'r' rfl
  rw [if_neg h7]
  by_cases h8 : r.toNat = 9
  · rw [if_pos h8]; exact hletter 't' rfl
  rw [if_neg h8]
  by_cases h9 : r.toNat = 11
  · rw [if_pos h9]; exact hletter 'v' rfl
  rw [if_neg h9]
  have hx : IsPrint tbl 'x' = true := rfl
  have hu : IsPrint tbl 'u' = true := rfl
  have hU : IsPrint tbl 'U' = true := rfl
  by_cases h10 : r.toNat < 0x20 ∨ r.toNat = 0x7F
  · rw [if_pos h10]
    intro c hc
    simp only [List.mem_cons, List.mem_singleton, List.not_mem_nil, or_false] at hc
    rcases hc with hc | hc | hc | hc <;> rw [hc] <;>
      first | exact hbs | exact hx | exact lowerhex_printable tbl _
  rw [if_neg h10]
  by_cases h11 : r.toNat < 0x10000
  · rw [if_pos h11]
    intro c hc
    simp only [List.mem_cons, List.mem_singleton, List.not_mem_nil, or_false] at hc
    rcases hc with hc | hc | hc | hc | hc | hc <;> rw [hc] <;>
      first | exact hbs | exact hu | exact lowerhex_printable tbl _
  rw [if_neg h11]
  intro c hc
  simp only [List.mem_cons, List.mem_singleton, List.not_mem_nil, or_false] at hc
  rcases hc with hc | hc | hc | hc | hc | hc | hc | hc | hc | hc <;> rw [hc] <;>
    first | exact hbs | exact hU | exact lowerhex_printable tbl _

theorem quoteBody_printable (tbl : Char → Bool) (cs : List Char) :
    ∀ c ∈ quoteBody tbl cs, IsPrint tbl c = true := by
  induction cs with
  | nil => intro c hc; cases hc
  | cons r rest ih =>
    intro c hc
    rw [quoteBody] at hc
    rcases List.mem_append.1 hc with h | h
    · exact appendEscapedRune_printable tbl r c h
    · exact ih c h

theorem Quote_printable (tbl : Char → Bool) (s : String) :
    ∀ c ∈ (Quote tbl s).data, IsPrint tbl c = true := by
  intro c hc
  simp only [Quote, List.mem_cons, List.mem_append, List.mem_singleton, List.not_mem_nil,
    or_false] at hc
  rcases hc with hc | hc | hc
  · rw [hc]; rfl
  · exact quoteBody_printable tbl s.data c hc
  · rw [hc]; rfl

theorem formatInt_printable (tbl : Char → Bool) (n : Int) :
    ∀ c ∈ (formatInt n).data, IsPrint tbl c = true := by
  have hdigit : ∀ k : Nat, ∀ c ∈ (Nat.repr k).data, IsPrint tbl c = true := by
    intro k c hc
    have hd := (Nat_repr_canonical k).2.1 c hc
    simp only [isDecimalDigit, decide_eq_true_eq] at hd
    exact IsPrint_ascii tbl c (by omega) (by omega)
  cases n with
  | ofNat k => exact hdigit k
  | negSucc k =>
    intro c hc
    rw [formatInt, String.data_append] at hc
    rcases List.mem_append.1 hc with h | h
    · have hm : c = '-' := by simpa using h
      rw [hm]; rfl
    · exact hdigit (k + 1) c h

theorem mem_intercalate (sep : String) (xs : List String) (c : Char)
    (hc : c ∈ (sep.intercalate xs).data) : c ∈ sep.data ∨ ∃ x ∈ xs, c ∈ x.data := by
  induction xs with
  | nil => simp [String.intercalate] at hc
  | cons x rest ih =>
    cases rest with
    | nil =>
      simp only [String.intercalate, String.intercalate.go] at hc
      exact Or.inr ⟨x, List.mem_singleton.2 rfl, hc⟩
    | cons y rest' =>
      rw [intercalate_cons_cons, String.data_append, String.data_append] at hc
      rcases List.mem_append.1 hc with h | h
      · rcases List.mem_append.1 h with h | h
        · exact Or.inr ⟨x, List.mem_cons_self _ _, h⟩
        · exact Or.inl h
      · rcases ih h with h' | ⟨z, hz, hcz⟩
        · exact Or.inl h'
        · exact Or.inr ⟨z, List.mem_cons_of_mem _ hz, hcz⟩

theorem mapIndex_eq_null_or_mem (values : List (String × Value)) (key : String) :
    mapIndex values key = Value.null ∨ ∃ p ∈ values, mapIndex values key = p.2 := by
  unfold mapIndex
  cases h : values.lookup key with
  | none => exact Or.inl rfl
  | some v =>
    refine Or.inr ?_
    induction values with
    | nil => simp [List.lookup] at h
    | cons p rest ih =>
      obtain ⟨k, x⟩ := p
      by_cases hk : key = k
      · simp [List.lookup, hk] at h
        exact ⟨(k, x), List.mem_cons_self _ _, by simp [h]⟩
      · have hb : (key == k) = false := by simpa using hk
        simp only [List.lookup, hb] at h
        obtain ⟨p, hp, hv⟩ := ih h
        exact ⟨p, List.mem_cons_of_mem _ hp, hv⟩

mutual
theorem Stringify_printable (tbl : Char → Bool) :
    ∀ v : Value, ∀ c ∈ (Stringify tbl v).data, IsPrint tbl c = true
  | Value.null => by
    intro c hc
    have h : c ∈ "null".data := hc
    simp only [List.mem_cons, List.mem_singleton, List.not_mem_nil, or_false] at h
    rcases h with h | h | h | h <;> rw [h] <;> rfl
  | Value.bool b => by
    intro c hc
    cases b with
    | true =>
      have h : c ∈ "true".data := hc
      simp only [List.mem_cons, List.mem_singleton, List.not_mem_nil, or_false] at h
      rcases h with h | h | h | h <;> rw [h] <;> rfl
    | false =>
      have h : c ∈ "false".data := hc
      simp only [List.mem_cons, List.mem_singleton, List.not_mem_nil, or_false] at h
      rcases h with h | h | h | h | h <;> rw [h] <;> rfl
  | Value.int n => by
    intro c hc
    rw [Stringify] at hc
    exact formatInt_printable tbl n c hc
  | Value.str s => by
    intro c hc
    rw [Stringify] at hc
    exact Quote_printable tbl s c hc
  | Value.rawMap m => by
    intro c hc
    rw [Stringify] at hc
    have h : c ∈ "unknown type".data := hc
    simp only [List.mem_cons, List.mem_singleton, List.not_mem_nil, or_false] at h
    rcases h with h | h | h | h | h | h | h | h | h | h | h | h <;> rw [h] <;> rfl
  | Value.array items => by
    intro c hc
    rw [Stringify_array, String.data_append, String.data_append] at hc
    rcases List.mem_append.1 hc with h | h
    · rcases List.mem_append.1 h with h | h
      · have hm : c = '[' := by simpa using h
        rw [hm]; rfl
      · rcases mem_intercalate _ _ c h with h' | ⟨x, hx, hcx⟩
        · have hm : c = ',' := by simpa using h'
          rw [hm]; rfl
        · obtain ⟨v, hv, hxv⟩ := List.mem_map.1 hx
          rw [← hxv] at hcx
          exact StringifyItems_printable tbl items v hv c hcx
    · have hm : c = ']' := by simpa using h
      rw [hm]; rfl
  | Value.dict keys values => by
    intro c hc
    rw [Stringify_dict, String.data_append, String.data_append] at hc
    rcases List.mem_append.1 hc with h | h
    · rcases List.mem_append.1 h with h | h
      · have hm : c = '\x7b' := by simpa using h
        rw [hm]; rfl
      · rcases mem_intercalate _ _ c h with h' | ⟨x, hx, hcx⟩
        · have hm : c = ',' := by simpa using h'
          rw [hm]; rfl
        · obtain ⟨key, _, hxk⟩ := List.mem_map.1 hx
          rw [← hxk, String.data_append, String.data_append] at hcx
          rcases List.mem_append.1 hcx with h1 | h1
          · rcases List.mem_append.1 h1 with h2 | h2
            · exact Quote_printable tbl key c h2
            · have hm : c = ':' ∨ c = ' ' := by simpa using h2
              rcases hm with hm | hm <;> rw [hm] <;> rfl
          · rcases mapIndex_eq_null_or_mem values key with hnull | ⟨p, hp, hv⟩
            · rw [hnull] at h1
              have h : c ∈ "null".data := h1
              simp only [List.mem_cons, List.mem_singleton, List.not_mem_nil, or_false] at h
              rcases h with h | h | h | h <;> rw [h] <;> rfl
            · rw [hv] at h1
              exact StringifyValues_printable tbl values p hp c h1
    · have hm : c = '\x7d' := by simpa using h
      rw [hm]; rfl
theorem StringifyItems_printable (tbl : Char → Bool) :
    ∀ (items : List Value), ∀ v ∈ items, ∀ c ∈ (Stringify tbl v).data, IsPrint tbl c = true
  | [] => by intro v hv; cases hv
  | x :: rest => by
    intro v hv
    rcases List.mem_cons.1 hv with h | h
    · rw [h]; exact Stringify_printable tbl x
    · exact StringifyItems_printable tbl rest v h
theorem StringifyValues_printable (tbl : Char → Bool) :
    ∀ (values : List (String × Value)), ∀ p ∈ values,
      ∀ c ∈ (Stringify tbl p.2).data, IsPrint tbl c = true
  | [] => by intro p hp; cases hp
  | (k, x) :: rest => by
    intro p hp
    rcases List.mem_cons.1 hp with h | h
    · rw [h]; exact Stringify_printable tbl x
    · exact StringifyValues_printable tbl rest p h
end

theorem not_control_of_IsPrint (tbl : Char → Bool) (c : Char) (h : IsPrint tbl c = true) :
    ¬ (c.toNat < 0x20 ∨ (0x7F ≤ c.toNat ∧ c.toNat ≤ 0xA0)) := by
  intro hc
  unfold IsPrint at h
  rw [if_pos (by omega), if_neg (by omega), if_neg (by omega)] at h
  cases h

/-- C13: for every value, with strings and map keys that may hold newline or
carriage-return characters, the text `Stringify(v)` holds printable characters only; so
it has no newline, no carriage return and no other control character (vertical tab, form
feed and next-line among them), which `%q` writes as escape sequences. -/
theorem C13_single_line_output (tbl : Char → Bool) (v : Value) :
    (∀ c ∈ (Stringify tbl v).data, IsPrint tbl c = true) ∧
    '\n' ∉ (Stringify tbl v).data ∧
    '\r' ∉ (Stringify tbl v).data ∧
    (∀ c ∈ (Stringify tbl v).data, ¬ (c.toNat < 0x20 ∨ (0x7F ≤ c.toNat ∧ c.toNat ≤ 0xA0))) ∧
    Stringify tbl (Value.dict ["a\nb"]
        [("a\nb", Value.array [Value.str "x\r\ny", Value.int (-1), Value.null])]) =
      "\x7b\"a\\nb\": [\"x\\r\\ny\",-1,null]\x7d" := by
  have hall := Stringify_printable tbl v
  have hctl : ∀ c ∈ (Stringify tbl v).data,
      ¬ (c.toNat < 0x20 ∨ (0x7F ≤ c.toNat ∧ c.toNat ≤ 0xA0)) :=
    fun c hc => not_control_of_IsPrint tbl c (hall c hc)
  exact ⟨hall, fun h => hctl _ h (Or.inl (by decide)), fun h => hctl _ h (Or.inl (by decide)),
    hctl, rfl⟩

/-! ## C15 and C16: scalars -/

/-- C15: `Stringify(nil)` is `null`, `Stringify(true)` is `true` and `Stringify(false)`
is `false`, exactly: unquoted and in lower case. -/
theorem C15_Stringify_null_and_booleans (tbl : Char → Bool) :
    Stringify tbl Value.null = "null" ∧
    Stringify tbl (Value.bool true) = "true" ∧
    Stringify tbl (Value.bool false) = "false" :=
  ⟨rfl, rfl, rfl⟩

/-- C16: a raw value that is neither a string-keyed mapping nor a sequence is returned by
`dfsDecode` unchanged, with a nil error; so are null, every boolean, every number and
every string. -/
theorem C16_scalars_pass_through (x : Value)
    (hmap : ∀ m, x ≠ Value.rawMap m) (hseq : ∀ items, x ≠ Value.array items) :
    dfsDecode x = Except.ok x ∧
    dfsDecode Value.null = Except.ok Value.null ∧
    (∀ b, dfsDecode (Value.bool b) = Except.ok (Value.bool b)) ∧
    (∀ n, dfsDecode (Value.int n) = Except.ok (Value.int n)) ∧
    (∀ s, dfsDecode (Value.str s) = Except.ok (Value.str s)) := by
  refine ⟨?_, by simp [dfsDecode], fun b => by simp [dfsDecode], fun n => by simp [dfsDecode],
    fun s => by simp [dfsDecode]⟩
  cases x with
  | rawMap m => exact absurd rfl (hmap m)
  | array items => exact absurd rfl (hseq items)
  | null => simp [dfsDecode]
  | bool b => simp [dfsDecode]
  | int n => simp [dfsDecode]
  | str s => simp [dfsDecode]
  | dict keys values => simp [dfsDecode]

/-- C16 at the string `x`. -/
theorem C16_scalars_pass_through_witness :
    (∀ m, Value.str "x" ≠ Value.rawMap m) ∧ (∀ items, Value.str "x" ≠ Value.array items) ∧
    dfsDecode (Value.str "x") = Except.ok (Value.str "x") :=
  ⟨fun _ e => Value.noConfusion e, fun _ e => Value.noConfusion e,
    (C16_scalars_pass_through (Value.str "x") (fun _ e => Value.noConfusion e)
      (fun _ e => Value.noConfusion e)).1⟩

/-! ## C17: termination of normalization -/

theorem nestingDepth_le_itemsDepth (items : List Value) :
    ∀ v, v ∈ items → nestingDepth v ≤ itemsDepth items := by
  induction items with
  | nil => intro v hv; cases hv
  | cons x rest ih =>
    intro v hv
    rw [itemsDepth]
    rcases List.mem_cons.1 hv with h | h
    · rw [h]; exact Nat.le_max_left _ _
    · exact Nat.le_trans (ih v h) (Nat.le_max_right _ _)

theorem nestingDepth_le_entriesDepth (entries : List (String × Value)) :
    ∀ k v, (k, v) ∈ entries → nestingDepth v ≤ entriesDepth entries := by
  induction entries with
  | nil => intro k v hv; cases hv
  | cons p rest ih =>
    obtain ⟨k0, v0⟩ := p
    intro k v hv
    rw [entriesDepth]
    rcases List.mem_cons.1 hv with h | h
    · rw [(Prod.mk.inj h).2]; exact Nat.le_max_left _ _
    · exact Nat.le_trans (ih k v h) (Nat.le_max_right _ _)

theorem mapLoopWith_eq (call : Value → Option (Except Error Value))
    (m : List (String × Value)) :
    (∀ k v, (k, v) ∈ m → call v = some (dfsDecode v)) →
      ∀ d, mapLoopWith call m d = some (dfsDecodeMap m d) := by
  induction m with
  | nil => intro _ d; rw [mapLoopWith, dfsDecodeMap]
  | cons p rest ih =>
    obtain ⟨k0, v0⟩ := p
    intro hcall d
    rw [mapLoopWith, dfsDecodeMap, hcall k0 v0 (List.mem_cons_self _ _)]
    cases dfsDecode v0 with
    | error e => rfl
    | ok w => exact ih (fun k v h => hcall k v (List.mem_cons_of_mem _ h)) _

theorem arrayLoopWith_eq (call : Value → Option (Except Error Value)) (items : List Value) :
    (∀ v, v ∈ items → call v = some (dfsDecode v)) →
      ∀ a, arrayLoopWith call items a = some (dfsDecodeArray items a) := by
  induction items with
  | nil => intro _ a; rw [arrayLoopWith, dfsDecodeArray]
  | cons v0 rest ih =>
    intro hcall a
    rw [arrayLoopWith, dfsDecodeArray, hcall v0 (List.mem_cons_self _ _)]
    cases dfsDecode v0 with
    | error e => rfl
    | ok w => exact ih (fun v h => hcall v (List.mem_cons_of_mem _ h)) _

theorem dfsDecodeWithin_eq (frames : Nat) :
    ∀ v, nestingDepth v < frames → dfsDecodeWithin frames v = some (dfsDecode v) := by
  induction frames with
  | zero => intro v h; omega
  | succ f ih =>
    intro v h
    cases v with
    | rawMap m =>
      rw [nestingDepth] at h
      have hloop := mapLoopWith_eq (dfsDecodeWithin f) m
        (fun k v hv => ih v (by have := nestingDepth_le_entriesDepth m k v hv; omega)) NewDict
      rw [dfsDecodeWithin, hloop, dfsDecode]
      cases dfsDecodeMap m NewDict <;> rfl
    | array items =>
      rw [nestingDepth] at h
      have hloop := arrayLoopWith_eq (dfsDecodeWithin f) items
        (fun v hv => ih v (by have := nestingDepth_le_itemsDepth items v hv; omega)) []
      rw [dfsDecodeWithin, hloop, dfsDecode]
      cases dfsDecodeArray items [] <;> rfl
    | null => simp [dfsDecodeWithin, dfsDecode]
    | bool b => simp [dfsDecodeWithin, dfsDecode]
    | int n => simp [dfsDecodeWithin, dfsDecode]
    | str s => simp [dfsDecodeWithin, dfsDecode]
    | dict keys values => simp [dfsDecodeWithin, dfsDecode]

/-- C17: `dfsDecode` terminates on every raw tree, and the depth of its recursion is
bounded by the nesting depth of the input: run with room for one activation more than the
nesting depth, it returns, and returns a value with no error. Each recursive call is on a
strict sub-value: a value of a raw mapping, or an element of a sequence, is nested less
deeply than the mapping or sequence itself. -/
theorem C17_dfsDecode_terminates (v : Value) :
    (∀ frames, nestingDepth v < frames → dfsDecodeWithin frames v = some (dfsDecode v)) ∧
    (∃ w, dfsDecodeWithin (nestingDepth v + 1) v = some (Except.ok w)) ∧
    (∀ m k x, v = Value.rawMap m → (k, x) ∈ m → nestingDepth x < nestingDepth v) ∧
    (∀ items x, v = Value.array items → x ∈ items → nestingDepth x < nestingDepth v) := by
  refine ⟨fun frames h => dfsDecodeWithin_eq frames v h, ?_, ?_, ?_⟩
  · obtain ⟨w, hw⟩ := dfsDecode_ok v
    exact ⟨w, by rw [dfsDecodeWithin_eq _ v (Nat.lt_succ_self _), hw]⟩
  · intro m k x hv hx
    rw [hv, nestingDepth]
    have := nestingDepth_le_entriesDepth m k x hx
    omega
  · intro items x hv hx
    rw [hv, nestingDepth]
    have := nestingDepth_le_itemsDepth items x hx
    omega

/-- C17 at the raw tree of the document `a: [1, b: "x"]`, of nesting depth 3. -/
theorem C17_dfsDecode_terminates_witness :
    nestingDepth (Value.rawMap [("a", Value.array [Value.int 1,
      Value.rawMap [("b", Value.str "x")]])]) < 4 ∧
    dfsDecodeWithin 4 (Value.rawMap [("a", Value.array [Value.int 1,
        Value.rawMap [("b", Value.str "x")]])]) =
      some (dfsDecode (Value.rawMap [("a", Value.array [Value.int 1,
        Value.rawMap [("b", Value.str "x")]])])) ∧
    nestingDepth (Value.array [Value.int 1, Value.rawMap [("b", Value.str "x")]]) <
      nestingDepth (Value.rawMap [("a", Value.array [Value.int 1,
        Value.rawMap [("b", Value.str "x")]])]) :=
  have h := C17_dfsDecode_terminates (Value.rawMap [("a", Value.array [Value.int 1,
    Value.rawMap [("b", Value.str "x")]])])
  ⟨by decide, h.1 4 (by decide), h.2.2.1 _ "a" _ rfl (List.mem_cons_self _ _)⟩

/-! ## C18: the retained values agree with the flag -/

/-- C18: in every state reachable from `NewDecoder` by calls to `IsList` and `Parse`, the
buffer is the one given at creation; while the flag is unset the retained mapping and the
retained list are both absent; a Dict-rooted decoder (flag false) has no retained list and
a List-rooted decoder (flag true) has no retained mapping; so the two raw root values are
never both populated. -/
theorem C18_retained_shapes_disjoint (raw : YamlStream) (d : Decoder)
    (hreach : Reachable raw d) :
    d.raw = raw ∧
    (d.isList = none → d.m = none ∧ d.l = none) ∧
    (d.isList = some false → d.l = none) ∧
    (d.isList = some true → d.m = none) ∧
    ¬ (d.m ≠ none ∧ d.l ≠ none) := by
  have hinv : d.raw = raw ∧ (d.isList = none → d.m = none ∧ d.l = none) ∧
      (d.isList = some false → d.l = none) ∧ (d.isList = some true → d.m = none) := by
    have hstep : ∀ (ord : MapOrder) (d0 : Decoder),
        (d0.raw = raw ∧ (d0.isList = none → d0.m = none ∧ d0.l = none) ∧
          (d0.isList = some false → d0.l = none) ∧ (d0.isList = some true → d0.m = none)) →
        ((d0.IsList ord).2.raw = raw ∧
          ((d0.IsList ord).2.isList = none →
            (d0.IsList ord).2.m = none ∧ (d0.IsList ord).2.l = none) ∧
          ((d0.IsList ord).2.isList = some false → (d0.IsList ord).2.l = none) ∧
          ((d0.IsList ord).2.isList = some true → (d0.IsList ord).2.m = none)) := by
      intro ord d0 h0
      cases hflag : d0.isList with
      | some b =>
        have hsame : d0.IsList ord = (b, d0) := by simp [Decoder.IsList, hflag]
        rw [hsame]
        exact h0
      | none =>
        have hnone := h0.2.1 hflag
        simp only [Decoder.IsList, hflag]
        rcases hdec : yamlDecodeMap ord d0.raw with ⟨_ | e, m, dec1⟩
        · exact ⟨h0.1, by simp, fun _ => hnone.2, by simp⟩
        · exact ⟨h0.1, by simp, by simp, fun _ => hnone.1⟩
    induction hreach with
    | fresh => exact ⟨rfl, fun _ => ⟨rfl, rfl⟩, fun _ => rfl, fun _ => rfl⟩
    | isList ord d0 _ ih => exact hstep ord d0 ih
    | parse ord d0 _ ih =>
      have hp : (Parse ord d0).2 = (d0.IsList ord).2 := by
        unfold Parse
        rcases d0.IsList ord with ⟨_ | _, dec1⟩ <;> rfl
      rw [hp]
      exact hstep ord d0 ih
  refine ⟨hinv.1, hinv.2.1, hinv.2.2.1, hinv.2.2.2, ?_⟩
  rintro ⟨hm, hl⟩
  cases hflag : d.isList with
  | none => exact hm (hinv.2.1 hflag).1
  | some b =>
    cases b with
    | false => exact hl (hinv.2.2.1 hflag)
    | true => exact hm (hinv.2.2.2 hflag)

/-- C18 at the decoder of the document `a: 1`, after `Parse` and then `IsList`. -/
theorem C18_retained_shapes_disjoint_witness :
    Reachable (YamlStream.doc (Node.map [("a", Node.int 1)]) YamlStream.eof)
      (((Parse id (NewDecoder
        (YamlStream.doc (Node.map [("a", Node.int 1)]) YamlStream.eof))).2).IsList id).2 ∧
    (((Parse id (NewDecoder
        (YamlStream.doc (Node.map [("a", Node.int 1)]) YamlStream.eof))).2).IsList id).2.l
      = none :=
  have hr : Reachable (YamlStream.doc (Node.map [("a", Node.int 1)]) YamlStream.eof)
      (((Parse id (NewDecoder
        (YamlStream.doc (Node.map [("a", Node.int 1)]) YamlStream.eof))).2).IsList id).2 :=
    Reachable.isList id _ (Reachable.parse id _ Reachable.fresh)
  ⟨hr, (C18_retained_shapes_disjoint _ _ hr).2.2.1 rfl⟩

/-! ## C19: the output of `Parse` renders without fallback -/

theorem itemsAreRaw_iff (items : List Value) :
    itemsAreRaw items = true ↔ ∀ v ∈ items, isRawTree v = true := by
  induction items with
  | nil => simp [itemsAreRaw]
  | cons x rest ih => simp [itemsAreRaw, ih]

theorem entriesAreRaw_iff (m : List (String × Value)) :
    entriesAreRaw m = true ↔ ∀ p ∈ m, isRawTree p.2 = true := by
  induction m with
  | nil => simp [entriesAreRaw]
  | cons p rest ih =>
    obtain ⟨k, x⟩ := p
    simp [entriesAreRaw, ih]

theorem itemsAreCanonical_iff (items : List Value) :
    itemsAreCanonical items = true ↔ ∀ v ∈ items, isCanonical v = true := by
  induction items with
  | nil => simp [itemsAreCanonical]
  | cons x rest ih => simp [itemsAreCanonical, ih]

theorem valuesAreCanonical_iff (m : List (String × Value)) :
    valuesAreCanonical m = true ↔ ∀ p ∈ m, isCanonical p.2 = true := by
  induction m with
  | nil => simp [valuesAreCanonical]
  | cons p rest ih =>
    obtain ⟨k, x⟩ := p
    simp [valuesAreCanonical, ih]

theorem entriesAreRaw_of_Legal (ord : MapOrder) (hord : MapOrder.Legal ord)
    (m : List (String × Value)) (h : entriesAreRaw m = true) : entriesAreRaw (ord m) = true := by
  rw [entriesAreRaw_iff] at h ⊢
  intro p hp
  exact h p ((hord m).mem_iff.1 hp)

mutual
theorem toIface_raw (ord : MapOrder) (hord : MapOrder.Legal ord) :
    ∀ (n : Node) (v : Value), Node.toIface ord n = some v → isRawTree v = true
  | Node.null, v => by
    intro h
    rw [Node.toIface] at h
    cases h
    rfl
  | Node.bool b, v => by
    intro h
    rw [Node.toIface] at h
    cases h
    rfl
  | Node.int i, v => by
    intro h
    rw [Node.toIface] at h
    cases h
    rfl
  | Node.str s, v => by
    intro h
    rw [Node.toIface] at h
    cases h
    rfl
  | Node.seq items, v => by
    intro h
    rw [Node.toIface] at h
    cases h
    rw [isRawTree]
    exact seqToIface_raw ord hord items
  | Node.map entries, v => by
    intro h
    rw [Node.toIface] at h
    by_cases hdup : hasDupKeys entries = true
    · rw [if_pos hdup] at h
      cases h
    · rw [if_neg hdup] at h
      cases h
      rw [isRawTree]
      exact entriesAreRaw_of_Legal ord hord _ (mapToIface_raw ord hord entries)
theorem seqToIface_raw (ord : MapOrder) (hord : MapOrder.Legal ord) :
    ∀ items : List Node, itemsAreRaw (seqToIface ord items) = true
  | [] => by rw [seqToIface, itemsAreRaw]
  | n :: rest => by
    rw [seqToIface]
    cases hn : Node.toIface ord n with
    | none => exact seqToIface_raw ord hord rest
    | some v =>
      simp only [itemsAreRaw, Bool.and_eq_true]
      exact ⟨toIface_raw ord hord n v hn, seqToIface_raw ord hord rest⟩
theorem mapToIface_raw (ord : MapOrder) (hord : MapOrder.Legal ord) :
    ∀ entries : List (String × Node), entriesAreRaw (mapToIface ord entries) = true
  | [] => by rw [mapToIface, entriesAreRaw]
  | (k, n) :: rest => by
    rw [mapToIface]
    cases hn : Node.toIface ord n with
    | none => exact mapToIface_raw ord hord rest
    | some v =>
      simp only [entriesAreRaw, Bool.and_eq_true]
      exact ⟨toIface_raw ord hord n v hn, mapToIface_raw ord hord rest⟩
end

theorem yamlDecodeMap_raw (ord : MapOrder) (hord : MapOrder.Legal ord) (raw : YamlStream)
    (m : List (String × Value)) (h : (yamlDecodeMap ord raw).2.1 = some m) :
    entriesAreRaw m = true := by
  have hmap : ∀ entries, entriesAreRaw (ord (mapToIface ord entries)) = true :=
    fun entries => entriesAreRaw_of_Legal ord hord _ (mapToIface_raw ord hord entries)
  cases raw with
  | eof => simp [yamlDecodeMap] at h
  | bad => simp [yamlDecodeMap] at h
  | doc n rest =>
    cases n with
    | map entries =>
      simp only [yamlDecodeMap] at h
      split at h
      · simp at h
      · split at h
        · simp only [Option.some.injEq] at h
          rw [← h]
          exact hmap entries
        · simp only [Option.some.injEq] at h
          rw [← h]
          exact hmap entries
    | null => simp [yamlDecodeMap] at h
    | bool b => simp [yamlDecodeMap] at h
    | int i => simp [yamlDecodeMap] at h
    | str s => simp [yamlDecodeMap] at h
    | seq items => simp [yamlDecodeMap] at h

theorem yamlDecodeList_raw (ord : MapOrder) (hord : MapOrder.Legal ord) (raw : YamlStream)
    (l : List Value) (h : (yamlDecodeList ord raw).2.1 = some l) :
    itemsAreRaw l = true := by
  cases raw with
  | eof => simp [yamlDecodeList] at h
  | bad => simp [yamlDecodeList] at h
  | doc n rest =>
    cases n with
    | seq items =>
      simp only [yamlDecodeList] at h
      split at h
      · simp only [Option.some.injEq] at h
        rw [← h]
        exact seqToIface_raw ord hord items
      · simp only [Option.some.injEq] at h
        rw [← h]
        exact seqToIface_raw ord hord items
    | null => simp [yamlDecodeList] at h
    | bool b => simp [yamlDecodeList] at h
    | int i => simp [yamlDecodeList] at h
    | str s => simp [yamlDecodeList] at h
    | map entries => simp [yamlDecodeList] at h

/-- The retained raw values stay raw trees through `IsList`. -/
theorem IsList_retains_raw (ord : MapOrder) (hord : MapOrder.Legal ord) (dec : Decoder)
    (hm : ∀ m, dec.m = some m → entriesAreRaw m = true)
    (hl : ∀ l, dec.l = some l → itemsAreRaw l = true) :
    (∀ m, (dec.IsList ord).2.m = some m → entriesAreRaw m = true) ∧
    (∀ l, (dec.IsList ord).2.l = some l → itemsAreRaw l = true) := by
  cases hflag : dec.isList with
  | some b =>
    have hsame : dec.IsList ord = (b, dec) := by simp [Decoder.IsList, hflag]
    rw [hsame]
    exact ⟨hm, hl⟩
  | none =>
    simp only [Decoder.IsList, hflag]
    rcases hdec : yamlDecodeMap ord dec.raw with ⟨_ | e, m0, dec1⟩
    · refine ⟨?_, hl⟩
      intro m hmm
      exact yamlDecodeMap_raw ord hord dec.raw m (by rw [hdec]; exact hmm)
    · refine ⟨hm, ?_⟩
      intro l hll
      exact yamlDecodeList_raw ord hord dec1 l hll

theorem valuesAreCanonical_mapAssign (values : List (String × Value)) (k : String) (w : Value)
    (hv : valuesAreCanonical values = true) (hw : isCanonical w = true) :
    valuesAreCanonical (mapAssign values k w) = true := by
  induction values with
  | nil => simp [mapAssign, valuesAreCanonical, hw]
  | cons p rest ih =>
    obtain ⟨k0, x⟩ := p
    simp only [valuesAreCanonical, Bool.and_eq_true] at hv
    rw [mapAssign]
    split
    · simp only [valuesAreCanonical, Bool.and_eq_true]
      exact ⟨hw, hv.2⟩
    · simp only [valuesAreCanonical, Bool.and_eq_true]
      exact ⟨hv.1, ih hv.2⟩

theorem itemsAreCanonical_append_singleton (a : List Value) (w : Value)
    (ha : itemsAreCanonical a = true) (hw : isCanonical w = true) :
    itemsAreCanonical (a ++ [w]) = true := by
  rw [itemsAreCanonical_iff] at ha ⊢
  intro v hv
  rcases List.mem_append.1 hv with h | h
  · exact ha v h
  · rw [List.mem_singleton.1 h]
    exact hw

mutual
theorem dfsDecode_canonical :
    ∀ (v w : Value), isRawTree v = true → dfsDecode v = Except.ok w → isCanonical w = true
  | Value.rawMap m, w => by
    intro hraw h
    rw [isRawTree] at hraw
    rw [dfsDecode] at h
    cases hd : dfsDecodeMap m NewDict with
    | error e => rw [hd] at h; cases h
    | ok d =>
      rw [hd] at h
      cases h
      rw [Dict.toValue, isCanonical]
      exact dfsDecodeMap_canonical m NewDict d hraw rfl hd
  | Value.array items, w => by
    intro hraw h
    rw [isRawTree] at hraw
    rw [dfsDecode] at h
    cases ha : dfsDecodeArray items [] with
    | error e => rw [ha] at h; cases h
    | ok a =>
      rw [ha] at h
      cases h
      rw [isCanonical]
      exact dfsDecodeArray_canonical items [] a hraw rfl ha
  | Value.null, w => by
    intro _ h
    simp [dfsDecode] at h
    rw [← h]
    rfl
  | Value.bool b, w => by
    intro _ h
    simp [dfsDecode] at h
    rw [← h]
    rfl
  | Value.int n, w => by
    intro _ h
    simp [dfsDecode] at h
    rw [← h]
    rfl
  | Value.str s, w => by
    intro _ h
    simp [dfsDecode] at h
    rw [← h]
    rfl
  | Value.dict keys values, w => by
    intro hraw _
    rw [isRawTree] at hraw
    cases hraw
theorem dfsDecodeMap_canonical :
    ∀ (m : List (String × Value)) (d d' : Dict), entriesAreRaw m = true →
      valuesAreCanonical d.Values = true → dfsDecodeMap m d = Except.ok d' →
      valuesAreCanonical d'.Values = true
  | [], d, d' => by
    intro _ hd h
    rw [dfsDecodeMap] at h
    cases h
    exact hd
  | (k, v) :: rest, d, d' => by
    intro hraw hd h
    simp only [entriesAreRaw, Bool.and_eq_true] at hraw
    obtain ⟨w, hw, hrest⟩ := dfsDecodeMap_cons_ok h
    have hcw := dfsDecode_canonical v w hraw.1 hw
    refine dfsDecodeMap_canonical rest (d.Set k w) d' hraw.2 ?_ hrest
    rw [Dict.Set_Values]
    exact valuesAreCanonical_mapAssign d.Values k w hd hcw
theorem dfsDecodeArray_canonical :
    ∀ (items a a' : List Value), itemsAreRaw items = true →
      itemsAreCanonical a = true → dfsDecodeArray items a = Except.ok a' →
      itemsAreCanonical a' = true
  | [], a, a' => by
    intro _ ha h
    rw [dfsDecodeArray] at h
    cases h
    exact ha
  | v :: rest, a, a' => by
    intro hraw ha h
    simp only [itemsAreRaw, Bool.and_eq_true] at hraw
    obtain ⟨w, hw, hrest⟩ := dfsDecodeArray_cons_ok h
    have hcw := dfsDecode_canonical v w hraw.1 hw
    exact dfsDecodeArray_canonical rest (a ++ [w]) a' hraw.2
      (itemsAreCanonical_append_singleton a w ha hcw) hrest
end

theorem lookup_rendered (tbl : Char → Bool) (values : List (String × Value)) (key : String) :
    ((values.map fun p => (p.1, some (Stringify tbl p.2))).lookup key).getD (some "null") =
      some (Stringify tbl (mapIndex values key)) := by
  induction values with
  | nil => simp [mapIndex, Stringify]
  | cons p rest ih =>
    obtain ⟨k, x⟩ := p
    by_cases h : key = k
    · simp [mapIndex, List.lookup, h]
    · have hb : (key == k) = false := by simpa using h
      simpa [mapIndex, List.lookup, hb] using ih

theorem strictEntries_eq (tbl : Char → Bool) (values : List (String × Value))
    (keys : List String) :
    strictEntries tbl (values.map fun p => (p.1, some (Stringify tbl p.2))) keys =
      some (keys.map fun key =>
        Quote tbl key ++ ": " ++ Stringify tbl (mapIndex values key)) := by
  induction keys with
  | nil => rw [strictEntries]; rfl
  | cons key rest ih =>
    rw [strictEntries, lookup_rendered, ih]
    rfl

mutual
theorem renderStrict_eq (tbl : Char → Bool) :
    ∀ v : Value, isCanonical v = true → renderStrict tbl v = some (Stringify tbl v)
  | Value.null => by intro _; rfl
  | Value.bool b => by intro _; rfl
  | Value.int n => by intro _; rfl
  | Value.str s => by intro _; rfl
  | Value.rawMap m => by
    intro h
    rw [isCanonical] at h
    cases h
  | Value.array items => by
    intro h
    rw [isCanonical] at h
    rw [renderStrict, renderStrictItems_eq tbl items h, Stringify_array]
  | Value.dict keys values => by
    intro h
    rw [isCanonical] at h
    rw [renderStrict, renderStrictValues_eq tbl values h, strictEntries_eq, Stringify_dict]
theorem renderStrictItems_eq (tbl : Char → Bool) :
    ∀ items : List Value, itemsAreCanonical items = true →
      renderStrictItems tbl items = some (items.map (Stringify tbl))
  | [] => by intro _; rfl
  | v :: rest => by
    intro h
    simp only [itemsAreCanonical, Bool.and_eq_true] at h
    rw [renderStrictItems, renderStrict_eq tbl v h.1, renderStrictItems_eq tbl rest h.2]
    rfl
theorem renderStrictValues_eq (tbl : Char → Bool) :
    ∀ values : List (String × Value), valuesAreCanonical values = true →
      renderStrictValues tbl values = values.map fun p => (p.1, some (Stringify tbl p.2))
  | [] => by intro _; rfl
  | (k, v) :: rest => by
    intro h
    simp only [valuesAreCanonical, Bool.and_eq_true] at h
    rw [renderStrictValues, renderStrict_eq tbl v h.1, renderStrictValues_eq tbl rest h.2]
    rfl
end

/-- C19: for every decoder whose retained raw tree holds only string-keyed mappings,
sequences, null, booleans, integers and strings, `Parse` returns a Canonical Value, and
`Stringify` of it equals the rendering of the reference renderer, which has no fallback
case and gives no text at all when it meets any other shape at any node; this holds for
Dict-rooted and List-rooted decoders alike. -/
theorem C19_Parse_output_renders_without_fallback (ord : MapOrder) (tbl : Char → Bool)
    (dec : Decoder) (hord : MapOrder.Legal ord)
    (hm : ∀ m, dec.m = some m → entriesAreRaw m = true)
    (hl : ∀ l, dec.l = some l → itemsAreRaw l = true) :
    (∃ v, (Parse ord dec).1 = Except.ok v ∧ isCanonical v = true ∧
      renderStrict tbl v = some (Stringify tbl v)) ∧
    renderStrict tbl (Value.array [Value.int 1, Value.rawMap []]) = none ∧
    renderStrict tbl (Value.dict ["k"] [("k", Value.rawMap [])]) = none := by
  refine ⟨?_, rfl, rfl⟩
  obtain ⟨hm', hl'⟩ := IsList_retains_raw ord hord dec hm hl
  unfold Parse
  rcases hres : dec.IsList ord with ⟨b, dec1⟩
  rw [hres] at hm' hl'
  cases b with
  | true =>
    obtain ⟨slice, hs⟩ := dfsDecodeArray_ok (dec1.l.getD []) []
    have hraw : itemsAreRaw (dec1.l.getD []) = true := by
      cases hl1 : dec1.l with
      | none => rfl
      | some l => exact hl' l hl1
    have hcan : isCanonical (Value.array slice) = true := by
      rw [isCanonical]
      exact dfsDecodeArray_canonical _ [] slice hraw rfl hs
    exact ⟨Value.array slice, by simp [decodeArray, hs], hcan, renderStrict_eq tbl _ hcan⟩
  | false =>
    obtain ⟨d, hd⟩ := dfsDecodeMap_ok (dec1.m.getD []) NewDict
    have hraw : entriesAreRaw (dec1.m.getD []) = true := by
      cases hm1 : dec1.m with
      | none => rfl
      | some m => exact hm' m hm1
    have hcan : isCanonical d.toValue = true := by
      rw [Dict.toValue, isCanonical]
      exact dfsDecodeMap_canonical _ NewDict d hraw rfl hd
    exact ⟨d.toValue, by simp [decodeDict, hd], hcan, renderStrict_eq tbl _ hcan⟩

/-- C19 at a Dict-rooted decoder that retains the raw tree of the document
`a: [1, b: "x"]`. -/
theorem C19_Parse_output_renders_without_fallback_witness :
    MapOrder.Legal List.reverse ∧
    entriesAreRaw [("a", Value.array [Value.int 1, Value.rawMap [("b", Value.str "x")]])]
      = true ∧
    ∃ v, (Parse List.reverse
        { isList := some false,
          raw := YamlStream.doc (Node.map
            [("a", Node.seq [Node.int 1, Node.map [("b", Node.str "x")]])]) YamlStream.eof,
          m := some [("a", Value.array [Value.int 1, Value.rawMap [("b", Value.str "x")]])],
          l := none }).1 = Except.ok v ∧ isCanonical v = true ∧
      renderStrict (fun _ => true) v = some (Stringify (fun _ => true) v) :=
  ⟨reverse_Legal, rfl,
    (C19_Parse_output_renders_without_fallback List.reverse (fun _ => true)
      { isList := some false,
        raw := YamlStream.doc (Node.map
          [("a", Node.seq [Node.int 1, Node.map [("b", Node.str "x")]])]) YamlStream.eof,
        m := some [("a", Value.array [Value.int 1, Value.rawMap [("b", Value.str "x")]])],
        l := none }
      reverse_Legal (fun _ h => by cases h; rfl) (fun _ h => by cases h)).1⟩

end Yx
